import Mathlib

/-!
Verification development for the Dota Underlords team-picker engine
(`src/dota_underlords/__main__.py`).

Heroes are identified by their names (the source hashes and compares them by
name, and the loader guarantees one record per name), so a hero is embedded as
a `String` and a set of heroes as a `Finset String`.  An `Alliance` keeps its
member heroes as a set of names; the hero-side `hero.alliances` lists live in a
`HeroDb` (built by the excluded loader), a map from hero name to the list of
alliances the hero belongs to.

Machine integers of the source are Python unbounded ints; all quantities that
occur are nonnegative (`a_size` and `m_size` are clamped by the `min` in
`p_size`/`t_size`), so they are embedded as `Nat`, with truncated subtraction
coinciding with the source values.

Python `set` iteration order is unspecified; where the source iterates a set
(only `_post_add_alliance`), the embedding fixes the sorted-by-name order,
one of the possible executions.  Dict iteration order is insertion order and
is embedded by an association list in insertion order.
-/

/-- An alliance record: `name`, `level` (step size), `total`, and the set of
member hero names (`effect` and the other fields are opaque to the engine). -/
structure Alliance where
  name : String
  level : Nat
  total : Nat
  heroes : Finset String
deriving DecidableEq

/-- The hero-side reference graph `hero.alliances`, built by the loader. -/
structure HeroDb where
  heroAlliances : String → List Alliance

/-- `TeamAlliances`: the per-team container.  `entries` is the dict
`Alliance → TeamAlliance` as an association list in insertion order, each
value reduced to its stored `level`; `team` and `mixed` are the two owned
hero sets. -/
structure TeamAlliances where
  entries : List (Alliance × Nat)
  team : Finset String
  mixed : Finset String
deriving DecidableEq

namespace TeamAlliances

/-- `TeamAlliances.pool = team | mixed`. -/
def pool (s : TeamAlliances) : Finset String := s.team ∪ s.mixed

/-- Membership test of the dict (`alliance in self.alliances`). -/
def containsKey (s : TeamAlliances) (a : Alliance) : Bool :=
  s.entries.any (fun e => e.1 = a)

/-- The stored level of an alliance: the value of its dict entry, `0` when the
alliance has no entry (a missing faction is read as level 0). -/
def level (s : TeamAlliances) (a : Alliance) : Nat :=
  ((s.entries.find? (fun e => e.1 = a)).map Prod.snd).getD 0

/-- `__missing__`: reading an absent key inserts a fresh level-0 entry. -/
def materialize (s : TeamAlliances) (a : Alliance) : TeamAlliances :=
  if s.containsKey a then s else { s with entries := s.entries ++ [(a, 0)] }

/-- `TeamAlliances.set`: dict assignment `self[alliance] = TeamAlliance(alliance, level, self)`.
An existing key keeps its position; a new key is appended. -/
def set (s : TeamAlliances) (a : Alliance) (lvl : Nat) : TeamAlliances :=
  if s.containsKey a then
    { s with entries := s.entries.map (fun e => if e.1 = a then (a, lvl) else e) }
  else { s with entries := s.entries ++ [(a, lvl)] }

/-- The key set of the dict (`self.keys()`), compared as a set by `__eq__`. -/
def keyFinset (s : TeamAlliances) : Finset Alliance :=
  (s.entries.map Prod.fst).toFinset

end TeamAlliances

/-- `TeamAlliance.p_heroes = alliance.heroes & pool`. -/
def pHeroes (s : TeamAlliances) (a : Alliance) : Finset String := a.heroes ∩ s.pool

/-- `TeamAlliance.t_heroes = alliance.heroes & team`. -/
def tHeroes (s : TeamAlliances) (a : Alliance) : Finset String := a.heroes ∩ s.team

/-- `TeamAlliance.m_heroes = alliance.heroes & mixed`. -/
def mHeroes (s : TeamAlliances) (a : Alliance) : Finset String := a.heroes ∩ s.mixed

/-- `TeamAlliance.a_heroes = alliance.heroes - pool`. -/
def aHeroes (s : TeamAlliances) (a : Alliance) : Finset String := a.heroes \ s.pool

/-- `TeamAlliance.p_size = min(alliance.level * level, len(p_heroes))`. -/
def pSize (s : TeamAlliances) (a : Alliance) (lvl : Nat) : Nat :=
  min (a.level * lvl) (pHeroes s a).card

/-- `TeamAlliance.t_size = min(alliance.level * level, len(t_heroes))`. -/
def tSize (s : TeamAlliances) (a : Alliance) (lvl : Nat) : Nat :=
  min (a.level * lvl) (tHeroes s a).card

/-- `TeamAlliance.m_size = p_size - t_size` (nonnegative since
`t_heroes ⊆ p_heroes`). -/
def mSize (s : TeamAlliances) (a : Alliance) (lvl : Nat) : Nat :=
  pSize s a lvl - tSize s a lvl

/-- `TeamAlliance.a_size = alliance.level * level - p_size` (nonnegative since
`p_size ≤ alliance.level * level`, so the `max(0, ·)` used when summing is the
identity). -/
def aSize (s : TeamAlliances) (a : Alliance) (lvl : Nat) : Nat :=
  a.level * lvl - pSize s a lvl

/-- `TeamAlliance.level_up_amount(level, t_size) = max(0, level*alliance.level - len(p_heroes) - t_size)`. -/
def levelUpAmount (s : TeamAlliances) (a : Alliance) (lvl tsz : Nat) : Nat :=
  lvl * a.level - (pHeroes s a).card - tsz

/-- `TeamAlliances.size = len(team) + len(mixed) + sum(max(0, ta.a_size) ...)`. -/
def TeamAlliances.size (s : TeamAlliances) : Nat :=
  s.team.card + s.mixed.card + (s.entries.map (fun e => aSize s e.1 e.2)).sum

/-- The `Team` object: cached `size`, the `alliances` container, and `limit`. -/
structure Team where
  size : Nat
  alliances : TeamAlliances
  limit : Nat
deriving DecidableEq

/-- `Team(limit)`: the freshly constructed empty team. -/
def Team.empty (limit : Nat) : Team := ⟨0, ⟨[], ∅, ∅⟩, limit⟩

/-- `TeamAlliances.__eq__`: compares `team`, `mixed` and the key SET of the
dict (`self.keys() == other.keys()`); the stored levels are not compared. -/
def TeamAlliances.pyEq (s u : TeamAlliances) : Bool :=
  s.team = u.team ∧ s.mixed = u.mixed ∧ s.keyFinset = u.keyFinset

/-- `Team.__eq__`: cached size, the container comparison above, and limit. -/
def Team.pyEq (t u : Team) : Bool :=
  t.size = u.size ∧ t.alliances.pyEq u.alliances ∧ t.limit = u.limit

/-- `TeamAlliances.copy`: fresh sets and re-parented copies of every entry.
In the pure embedding aliasing is invisible, so the copy is the same value. -/
def TeamAlliances.copy (s : TeamAlliances) : TeamAlliances :=
  { entries := s.entries.map (fun e => (e.1, e.2)), team := s.team, mixed := s.mixed }

/-- `Team.copy`. -/
def Team.copy (t : Team) : Team :=
  { size := t.size, alliances := t.alliances.copy, limit := t.limit }

/-- Union of a list of finsets (used for the promotion sets gathered by the
convergence loops before they are merged in one step). -/
def unionList : List (Finset String) → Finset String
  | [] => ∅
  | f :: rest => f ∪ unionList rest

/-- `Team._post_check`: every entry must have `len(a_heroes) ≥ a_size` and
`len(m_heroes) ≥ m_size`; `True` when no entry fails. -/
def postCheckOk (s : TeamAlliances) : Bool :=
  s.entries.all (fun e =>
    aSize s e.1 e.2 ≤ (aHeroes s e.1).card ∧ mSize s e.1 e.2 ≤ (mHeroes s e.1).card)

/-- The set `_post_add_mixed` accumulates: the outstanding heroes of every
faction whose `len(a_heroes) ≤ a_size`. -/
def mixPromote (s : TeamAlliances) : Finset String :=
  unionList
    ((s.entries.filter (fun e => (aHeroes s e.1).card ≤ aSize s e.1 e.2)).map
      (fun e => aHeroes s e.1))

/-- `Team._post_add_mixed`: factions whose outstanding heroes are all required
(`len(a_heroes) ≤ a_size`) have those heroes merged into `mixed`. -/
def postAddMixed (s : TeamAlliances) : TeamAlliances :=
  { s with mixed := s.mixed ∪ mixPromote s }

/-- The set `_post_add_team` accumulates: the ambiguous heroes of every
faction whose `len(m_heroes) ≤ m_size`. -/
def teamPromote (s : TeamAlliances) : Finset String :=
  unionList
    ((s.entries.filter (fun e => (mHeroes s e.1).card ≤ mSize s e.1 e.2)).map
      (fun e => mHeroes s e.1))

/-- `Team._post_add_team`: factions whose ambiguous heroes are all owed to them
(`len(m_heroes) ≤ m_size`) have those heroes moved from `mixed` into `team`. -/
def postAddTeam (s : TeamAlliances) : TeamAlliances :=
  { s with team := s.team ∪ teamPromote s, mixed := s.mixed \ teamPromote s }

/-- The incidence count of alliance `a` among the team heroes: the length of
the hero list that `_post_add_alliance` accumulates for `a` (one occurrence per
appearance of `a` in a team hero's `alliances` list). -/
def teamIncidence (db : HeroDb) (team : Finset String) (a : Alliance) : Nat :=
  ∑ h ∈ team, (db.heroAlliances h).count a

/-- Keep the first occurrence of each element (Python dict insertion order). -/
def firstDedup (l : List Alliance) : List Alliance :=
  l.foldl (fun acc a => if a ∈ acc then acc else acc ++ [a]) []

/-- A canonical enumeration of a finite hero set: its names in increasing
order (insertion sort, so that the kernel can evaluate it). -/
def sortedNames (s : Finset String) : List String :=
  Quot.liftOn s.val (List.insertionSort (· ≤ ·)) fun l₁ l₂ h =>
    List.eq_of_perm_of_sorted
      ((List.perm_insertionSort _ l₁).trans (h.trans (List.perm_insertionSort _ l₂).symm))
      (List.sorted_insertionSort _ l₁) (List.sorted_insertionSort _ l₂)

/-- The alliances encountered by `_post_add_alliance`, in order of first
appearance while iterating the team (by sorted hero name) and each hero's
`alliances` list. -/
def teamAllianceList (db : HeroDb) (team : Finset String) : List Alliance :=
  firstDedup ((sortedNames team).flatMap db.heroAlliances)

/-- One step of `_post_add_alliance` for one alliance: compute
`level = count // alliance.level`; when nonzero, read the entry (materializing
it if missing) and raise its stored level if below. -/
def postAddAllianceStep (db : HeroDb) (s : TeamAlliances) (a : Alliance) : TeamAlliances :=
  let lvl := teamIncidence db s.team a / a.level
  if lvl ≠ 0 then
    let s1 := s.materialize a
    if s1.level a < lvl then s1.set a lvl else s1
  else s

/-- `Team._post_add_alliance`: recompute each encountered faction's level from
the confirmed team and raise stored levels monotonically. -/
def postAddAlliance (db : HeroDb) (s : TeamAlliances) : TeamAlliances :=
  (teamAllianceList db s.team).foldl (postAddAllianceStep db) s

/-- `Team._post_add`: the three-step convergence pass. -/
def postAdd (db : HeroDb) (s : TeamAlliances) : TeamAlliances :=
  postAddAlliance db (postAddTeam (postAddMixed s))

/-- Outcome of a mutation call.  The source raises `ValueError` for both the
capacity and the composition error; `_add` can also crash with a `NameError`
when its `levels` iterable is empty (the loop variable `level` is then unbound
at `self.alliances.set(alliance, level)`).  Each constructor carries the
observable `Team` state after the call. -/
inductive Outcome where
  | ok (t : Team)
  | capacityError (t : Team)
  | compositionError (t : Team)
  | nameError (t : Team)
deriving DecidableEq

/-- Whether an outcome is the `NameError` crash (the only outcome the
`except ValueError` of the exploration engine does not absorb). -/
def Outcome.isNameErr : Outcome → Bool
  | Outcome.nameError _ => true
  | _ => false

/-- The overlap-resolution loop at the head of `Team._add`: starting from
`(pool, 0)`, for every already-present entry with positive `a_size` and a
different alliance, accumulate the shared heroes and the reserved team size. -/
def addOverlap (s : TeamAlliances) (a : Alliance) : Finset String × Nat :=
  if s.containsKey a then (s.pool, 0)
  else s.entries.foldl
    (fun acc e =>
      if e.1 ≠ a ∧ 0 < aSize s e.1 e.2 then
        (acc.1 ∪ e.1.heroes ∩ a.heroes,
         acc.2 + min (aSize s e.1 e.2) (((e.1.heroes ∩ a.heroes) \ acc.1).card))
      else acc)
    (s.pool, 0)

/-- The working hero set of `_add` after `team -= self.alliances.pool`. -/
def addWorkingSet (s : TeamAlliances) (a : Alliance) : Finset String :=
  (addOverlap s a).1 \ s.pool

/-- The `t_size` accumulator of `_add`. -/
def addTSize (s : TeamAlliances) (a : Alliance) : Nat := (addOverlap s a).2

/-- The candidate-level loop of `_add`.  Returns `none` for an empty list
(Python would hit a `NameError` later); otherwise `some (level, size)` where
`level` is the value of the leaked loop variable after the loop — the first
candidate that is above the current level and fits (then `size` includes its
`level_up_amount`), or the last list element when the loop finishes without a
break (then `size` is unchanged). -/
def loopLevels (taLevel alLevel pCard tsz size0 limit : Nat) : List Nat → Option (Nat × Nat)
  | [] => none
  | [l] =>
    if taLevel < l ∧ size0 + (l * alLevel - pCard - tsz) ≤ limit then
      some (l, size0 + (l * alLevel - pCard - tsz))
    else some (l, size0)
  | l :: l2 :: rest =>
    if taLevel < l ∧ size0 + (l * alLevel - pCard - tsz) ≤ limit then
      some (l, size0 + (l * alLevel - pCard - tsz))
    else loopLevels taLevel alLevel pCard tsz size0 limit (l2 :: rest)

/-- The committed container of `_add` just before the post-commit size check:
the snapshot plus `mixed |= team` and `set(alliance, level)`. -/
def commitState (s : TeamAlliances) (a : Alliance) (lvl : Nat) : TeamAlliances :=
  TeamAlliances.set
    { s.materialize a with mixed := (s.materialize a).mixed ∪ addWorkingSet s a } a lvl

/-- `Team._add`, the shared mutation algorithm.  Error outcomes carry the
state the Python object is left in: the capacity error raised before the
snapshot keeps only the materialized entry; the post-commit capacity error and
the composition error restore `alliances` to the snapshot (which already
contains the materialized level-0 entry) but keep the already-assigned cached
`size`. -/
def Team.addLevels (db : HeroDb) (t : Team) (a : Alliance) (levels : List Nat) : Outcome :=
  let s := t.alliances
  let s1 := s.materialize a
  let size0 := s1.size
  match loopLevels (s1.level a) a.level (pHeroes s1 a).card (addTSize s a) size0 t.limit levels with
  | none =>
    if t.limit < size0 then Outcome.capacityError ⟨t.size, s1, t.limit⟩
    else Outcome.nameError ⟨size0, { s1 with mixed := s1.mixed ∪ addWorkingSet s a }, t.limit⟩
  | some (lvl, sz) =>
    if t.limit < sz then Outcome.capacityError ⟨t.size, s1, t.limit⟩
    else if t.limit < (commitState s a lvl).size then Outcome.capacityError ⟨sz, s1, t.limit⟩
    else if postCheckOk (commitState s a lvl) then
      Outcome.ok ⟨sz, postAdd db (commitState s a lvl), t.limit⟩
    else Outcome.compositionError ⟨sz, s1, t.limit⟩

/-- `Team.add(alliance, level)`: the requested level clamped to
`total // alliance.level`, as a single candidate. -/
def Team.add (db : HeroDb) (t : Team) (a : Alliance) (lvl : Nat) : Outcome :=
  t.addLevels db a [min lvl (a.total / a.level)]

/-- `range(m, 0, -1) = [m, m-1, ..., 1]`. -/
def descRange (m : Nat) : List Nat := (List.range m).reverse.map (· + 1)

/-- `Team.add_max(alliance)`: all tiers in descending order. -/
def Team.addMax (db : HeroDb) (t : Team) (a : Alliance) : Outcome :=
  t.addLevels db a (descRange (a.total / a.level))

/-- The container state `_add_hero` commits before its post-check:
`self.alliances.team |= {hero}` then `self.alliances.mixed -= self.alliances.team`. -/
def heroCommit (s : TeamAlliances) (h : String) : TeamAlliances :=
  { s with team := s.team ∪ {h}, mixed := s.mixed \ (s.team ∪ {h}) }

/-- `Team._add_hero` / `Team.add_hero`.  The cached `size` field is never
updated by this operation. -/
def Team.addHero (db : HeroDb) (t : Team) (h : String) : Outcome :=
  let s := t.alliances
  if (¬ s.entries.any (fun e => 0 < aSize s e.1 e.2 ∧ h ∈ aHeroes s e.1)) ∧
      t.limit < s.size + 1 then
    Outcome.capacityError t
  else
    if postCheckOk (heroCommit s h) then Outcome.ok { t with alliances := postAdd db (heroCommit s h) }
    else Outcome.compositionError t

/-- `team_inc`: raise by one level (1 when the faction has no entry). -/
def teamInc (db : HeroDb) (t : Team) (a : Alliance) : Outcome :=
  let lvl := if t.alliances.containsKey a then t.alliances.level a + 1 else 1
  t.add db a lvl

/-- `team_max`: jump to the maximum feasible tier. -/
def teamMax (db : HeroDb) (t : Team) (a : Alliance) : Outcome :=
  t.addMax db a

/-- `iter_or`: the list itself, or the default when it is empty. -/
def iterOr {α : Type} (l : List α) (d : α) : List α :=
  if l.isEmpty then [d] else l

/-- `Team._increase`: apply `fn` to a copy per candidate, skip candidates that
raise a `ValueError` (either error kind), keep results value-unequal to the
original.  `none` when a candidate crashes with a `NameError` (which the
`except ValueError` does not catch and which aborts the whole iteration). -/
def increaseAux (t : Team) (fn : Team → Alliance → Outcome) : List Alliance → Option (List Team)
  | [] => some []
  | a :: rest =>
    match fn t.copy a with
    | Outcome.ok v =>
      (increaseAux t fn rest).map (fun l => if Team.pyEq v t then l else v :: l)
    | Outcome.capacityError _ => increaseAux t fn rest
    | Outcome.compositionError _ => increaseAux t fn rest
    | Outcome.nameError _ => none

/-- `Team.increase`: `iter_or(self._increase(...), self)`. -/
def Team.increase (t : Team) (cands : List Alliance) (fn : Team → Alliance → Outcome) :
    Option (List Team) :=
  (increaseAux t fn cands).map (fun l => iterOr l t)

/-- `Team.recursive_increase`, bounded by fuel: the source recursion has no
termination measure, so the embedding counts recursion depth; `none` means the
bounded run did not complete (fuel exhausted or a `NameError`). -/
def recursiveIncreaseFuel (cands : List Alliance) (fn : Team → Alliance → Outcome) :
    Nat → Team → Option (List Team)
  | 0, _ => none
  | n + 1, t =>
    (increaseAux t fn cands).bind (fun l =>
      if l.isEmpty then some [t]
      else l.foldr
        (fun u acc =>
          (recursiveIncreaseFuel cands fn n u).bind (fun x => acc.map (fun r => x ++ r)))
        (some []))

/-- A public mutation of the `Team` API. -/
inductive Mut where
  | add (a : Alliance) (lvl : Nat)
  | addMax (a : Alliance)
  | addHero (h : String)

/-- Run a public mutation. -/
def applyMut (db : HeroDb) (t : Team) : Mut → Outcome
  | Mut.add a lvl => t.add db a lvl
  | Mut.addMax a => t.addMax db a
  | Mut.addHero h => t.addHero db h

/-- The faction key a mutation may lazily materialize. -/
def mutKeys : Mut → Finset Alliance
  | Mut.add a _ => {a}
  | Mut.addMax a => {a}
  | Mut.addHero _ => ∅

/-- The hero a mutation adds directly. -/
def mutHeroes : Mut → Finset String
  | Mut.addHero h => {h}
  | _ => ∅

/-- The loader's guarantee on the reference graph: each hero's alliance list
has no duplicates, and listing an alliance implies membership in that
alliance's hero set (`load` performs `al.heroes.add(hero)` for every
`al in hero.alliances`). -/
def SoundDb (db : HeroDb) : Prop :=
  ∀ h : String, (db.heroAlliances h).Nodup ∧ ∀ a ∈ db.heroAlliances h, h ∈ a.heroes

/-- The union of the member-hero sets of all factions present in the dict. -/
def keysUnion (s : TeamAlliances) : Finset String :=
  s.keyFinset.biUnion Alliance.heroes

/-! Concrete data used to evaluate the engine at specific inputs: a reference
graph with no hero-side alliance lists (its alliances' heroes simply never
appear in any team of the examples that use it), and a few alliances shaped
like loaded game data. -/

/-- A reference graph in which no hero lists an alliance. -/
def emptyDb : HeroDb := ⟨fun _ => []⟩

/-- Warlocks: step 1, total 3, five member heroes (more members than the
maximum claim 3 needs, so no promotion to `mixed` ever fires). -/
def warlocks : Alliance := ⟨"warlocks", 1, 3, {"w1", "w2", "w3", "w4", "w5"}⟩

/-- State after `add(warlocks, 3)` on an empty team of limit 10. -/
def warlocks3 : Team := ⟨3, ⟨[(warlocks, 3)], ∅, ∅⟩, 10⟩

/-- State after a subsequent `add(warlocks, 1)`. -/
def warlocks1 : Team := ⟨3, ⟨[(warlocks, 1)], ∅, ∅⟩, 10⟩

/-- Brutes: step 1, total 2, three member heroes. -/
def brutes : Alliance := ⟨"brutes", 1, 2, {"n1", "n2", "n3"}⟩

/-- State after `add(brutes, 2)` on an empty team of limit 10. -/
def brutes2 : Team := ⟨2, ⟨[(brutes, 2)], ∅, ∅⟩, 10⟩

/-- State after a subsequent `add(brutes, 1)`: stale cached size 2, stored
level 1, computed size 1. -/
def brutesLo : Team := ⟨2, ⟨[(brutes, 1)], ∅, ∅⟩, 10⟩

/-- The state `add_max(brutes)` produces from `brutesLo`: cached size 3,
stored level 2, computed size 2.  `add_max` on this state produces `brutesLo`
again, closing a two-state cycle. -/
def brutesHi : Team := ⟨3, ⟨[(brutes, 2)], ∅, ∅⟩, 10⟩

/-- Hunters: step 1, total 5, six member heroes. -/
def hunters : Alliance := ⟨"hunters", 1, 5, {"k1", "k2", "k3", "k4", "k5", "k6"}⟩

/-- State after `add(hunters, 2)` on an empty team of limit 3. -/
def hunters2 : Team := ⟨2, ⟨[(hunters, 2)], ∅, ∅⟩, 3⟩

/-- State after a subsequent `add(hunters, 3)`: the candidate does not fit,
yet level 3 is committed and the call succeeds. -/
def hunters3 : Team := ⟨2, ⟨[(hunters, 3)], ∅, ∅⟩, 3⟩

/-- Savants: step 1, total 5, but only two member heroes exist, so claiming
level 5 fails the post-check with a composition error. -/
def savants : Alliance := ⟨"savants", 1, 5, {"s1", "s2"}⟩

/-- The state `add(savants, 5)` on an empty team of limit 10 is left in after
its composition error: cached size 5 and a materialized level-0 entry. -/
def savantsErr : Team := ⟨5, ⟨[(savants, 0)], ∅, ∅⟩, 10⟩

/-- A team whose only entry stores level 1. -/
def warlocksL1 : Team := ⟨2, ⟨[(warlocks, 1)], ∅, ∅⟩, 10⟩

/-- The same team except the entry stores level 2. -/
def warlocksL2 : Team := ⟨2, ⟨[(warlocks, 2)], ∅, ∅⟩, 10⟩

/-- Knights: step 1, total 2, three member heroes (the no-op candidate of the
`increase` scenario). -/
def knights : Alliance := ⟨"knights", 1, 2, {"m1", "m2", "m3"}⟩

/-- Scrappies: step 1, total 2, three member heroes (the succeeding candidate
of the `increase` scenario). -/
def scrappies : Alliance := ⟨"scrappies", 1, 2, {"g1", "g2", "g3"}⟩

/-- Demons: step 5, total 5, six member heroes (the erroring candidate of the
`increase` scenario — its only tier needs 5 slots). -/
def demons : Alliance := ⟨"demons", 5, 5, {"b1", "b2", "b3", "b4", "b5", "b6"}⟩

/-- State after `add(knights, 2)` on an empty team of limit 3. -/
def knights2 : Team := ⟨2, ⟨[(knights, 2)], ∅, ∅⟩, 3⟩

/-- The one team the `increase` scenario yields: `knights2` upgraded by
`team_max(scrappies)`. -/
def knightsScrappies : Team := ⟨3, ⟨[(knights, 2), (scrappies, 1)], ∅, ∅⟩, 3⟩

/-- The team `add_hero("x")` produces from an empty team of limit 10 under
`emptyDb`: the hero is confirmed, but the cached size is still 0. -/
def heroOnly : Team := ⟨0, ⟨[], {"x"}, ∅⟩, 10⟩

/-! ### Basic facts about the container operations -/

theorem team_materialize (s : TeamAlliances) (a : Alliance) :
    (s.materialize a).team = s.team := by
  unfold TeamAlliances.materialize; split <;> rfl

theorem mixed_materialize (s : TeamAlliances) (a : Alliance) :
    (s.materialize a).mixed = s.mixed := by
  unfold TeamAlliances.materialize; split <;> rfl

theorem pool_materialize (s : TeamAlliances) (a : Alliance) :
    (s.materialize a).pool = s.pool := by
  unfold TeamAlliances.pool; rw [team_materialize, mixed_materialize]

theorem level_materialize (s : TeamAlliances) (a b : Alliance) :
    (s.materialize a).level b = s.level b := by
  unfold TeamAlliances.materialize
  split
  · rfl
  · unfold TeamAlliances.level
    simp only [List.find?_append]
    cases hfb : s.entries.find? (fun e => decide (e.1 = b)) with
    | some e => simp [hfb]
    | none =>
      by_cases hab : a = b
      · subst hab; simp [hfb, List.find?_cons]
      · simp [hfb, List.find?_cons, hab]

theorem aSize_eq_of_pool (s u : TeamAlliances) (h : s.pool = u.pool) (a : Alliance) (lvl : Nat) :
    aSize s a lvl = aSize u a lvl := by
  unfold aSize pSize pHeroes; rw [h]

theorem aSize_zero (s : TeamAlliances) (a : Alliance) : aSize s a 0 = 0 := by
  unfold aSize; simp

theorem size_materialize (s : TeamAlliances) (a : Alliance) :
    (s.materialize a).size = s.size := by
  unfold TeamAlliances.materialize
  split
  · rfl
  · unfold TeamAlliances.size
    simp only [List.map_append, List.sum_append, List.map_cons, List.map_nil, List.sum_cons,
      List.sum_nil]
    have h1 : ∀ e ∈ s.entries,
        aSize { s with entries := s.entries ++ [(a, 0)] } e.1 e.2 = aSize s e.1 e.2 := by
      intro e _
      exact aSize_eq_of_pool _ _ rfl e.1 e.2
    rw [List.map_congr_left h1, aSize_zero]
    omega

theorem team_set (s : TeamAlliances) (a : Alliance) (lvl : Nat) :
    (s.set a lvl).team = s.team := by
  unfold TeamAlliances.set; split <;> rfl

theorem mixed_set (s : TeamAlliances) (a : Alliance) (lvl : Nat) :
    (s.set a lvl).mixed = s.mixed := by
  unfold TeamAlliances.set; split <;> rfl

theorem pool_set (s : TeamAlliances) (a : Alliance) (lvl : Nat) :
    (s.set a lvl).pool = s.pool := by
  unfold TeamAlliances.pool; rw [team_set, mixed_set]

theorem keyFinset_subset_set (s : TeamAlliances) (a : Alliance) (lvl : Nat) :
    s.keyFinset ⊆ (s.set a lvl).keyFinset := by
  intro x hx
  unfold TeamAlliances.keyFinset at hx ⊢
  simp only [List.mem_toFinset, List.mem_map] at hx ⊢
  obtain ⟨e, he, hex⟩ := hx
  unfold TeamAlliances.set
  split
  · by_cases hea : e.1 = a
    · exact ⟨(a, lvl), List.mem_map.2 ⟨e, he, by simp [hea]⟩, by simp [← hex, hea]⟩
    · exact ⟨e, List.mem_map.2 ⟨e, he, by simp [hea]⟩, hex⟩
  · exact ⟨e, List.mem_append_left _ he, hex⟩

theorem keyFinset_set_subset (s : TeamAlliances) (a : Alliance) (lvl : Nat) :
    (s.set a lvl).keyFinset ⊆ insert a s.keyFinset := by
  intro x hx
  unfold TeamAlliances.set at hx
  unfold TeamAlliances.keyFinset at hx
  simp only [List.mem_toFinset, List.mem_map] at hx
  unfold TeamAlliances.keyFinset
  simp only [Finset.mem_insert, List.mem_toFinset, List.mem_map]
  split at hx
  · obtain ⟨e, he, hex⟩ := hx
    obtain ⟨e0, he0, he0e⟩ := List.mem_map.1 he
    by_cases hea : e0.1 = a
    · left; rw [← hex, ← he0e]; simp [hea]
    · right; exact ⟨e0, he0, by rw [← hex, ← he0e]; simp [hea]⟩
  · obtain ⟨e, he, hex⟩ := hx
    rcases List.mem_append.1 he with he | he
    · right; exact ⟨e, he, hex⟩
    · left; simp at he; rw [← hex, he]

theorem keyFinset_materialize_subset (s : TeamAlliances) (a : Alliance) :
    s.keyFinset ⊆ (s.materialize a).keyFinset := by
  unfold TeamAlliances.materialize
  split
  · exact subset_rfl
  · intro x hx
    unfold TeamAlliances.keyFinset at hx ⊢
    simp only [List.mem_toFinset, List.mem_map] at hx ⊢
    obtain ⟨e, he, hex⟩ := hx
    exact ⟨e, List.mem_append_left _ he, hex⟩

theorem keyFinset_materialize_subset_insert (s : TeamAlliances) (a : Alliance) :
    (s.materialize a).keyFinset ⊆ insert a s.keyFinset := by
  unfold TeamAlliances.materialize
  split
  · exact Finset.subset_insert a _
  · intro x hx
    unfold TeamAlliances.keyFinset at hx
    simp only [List.mem_toFinset, List.mem_map] at hx
    obtain ⟨e, he, hex⟩ := hx
    rcases List.mem_append.1 he with he | he
    · refine Finset.mem_insert_of_mem ?_
      unfold TeamAlliances.keyFinset
      simp only [List.mem_toFinset, List.mem_map]
      exact ⟨e, he, hex⟩
    · simp at he
      rw [← hex, he]
      exact Finset.mem_insert_self a _

/-! ### Claims settled by evaluating the engine at concrete inputs -/

/-- C3 (refuted by the code): `add` with a level lower than the stored level is
not a no-op.  From an empty team of limit 10, `add(warlocks, 3)` stores
level 3; the subsequent `add(warlocks, 1)` succeeds and lowers the stored
level to 1 (the candidate loop accepts nothing, yet the leaked loop variable is
committed by `self.alliances.set(alliance, level)`). -/
theorem c3_level_decrease :
    (Team.empty 10).add emptyDb warlocks 3 = Outcome.ok warlocks3 ∧
    warlocks3.alliances.level warlocks = 3 ∧
    warlocks3.add emptyDb warlocks 1 = Outcome.ok warlocks1 ∧
    warlocks1.alliances.level warlocks = 1 := by decide

/-- C6 (refuted by the code): a call whose only candidate level exceeds the
current level and does not fit (`size + level_up_amount > limit`) can still
succeed and commit that level.  Here `hunters` is stored at level 2 in a team
of limit 3 with computed size 2; the candidate 3 needs 3 more slots
(`2 + 3 > 3`), yet `add(hunters, 3)` returns successfully with stored level 3:
the heuristic double-counts the already-outstanding heroes, the leaked loop
variable commits the level, and the recomputed size (3) passes the post-commit
check. -/
theorem c6_unfit_level_commits :
    (Team.empty 3).add emptyDb hunters 2 = Outcome.ok hunters2 ∧
    hunters2.alliances.level hunters = 2 ∧
    hunters2.alliances.size + levelUpAmount hunters2.alliances hunters 3 (addTSize hunters2.alliances hunters) > hunters2.limit ∧
    hunters2.add emptyDb hunters 3 = Outcome.ok hunters3 ∧
    hunters3.alliances.level hunters = 3 := by decide

/-- C10 (refuted by the code): `_add_hero` never assigns the cached
`Team.size`, so after a successful `add_hero` on a fresh team the cached size
(0) differs from the computed `alliances.size` (1). -/
theorem c10_cached_size_stale :
    (Team.empty 10).addHero emptyDb "x" = Outcome.ok heroOnly ∧
    heroOnly.size = 0 ∧ heroOnly.alliances.size = 1 := by decide

/-- C8 counterexample: two Teams that agree on cached size, limit, team set,
mixed set and key set but store different levels for the same faction are
reported equal by `Team.__eq__` (`TeamAlliances.__eq__` compares `keys()`
only, never the stored levels), so equality is not determined by "every
present faction's stored level". -/
theorem c8_eq_ignores_levels :
    Team.pyEq warlocksL1 warlocksL2 = true ∧
    warlocksL1.alliances.level warlocks = 1 ∧
    warlocksL2.alliances.level warlocks = 2 := by decide

/-- C8 as amended: `Team.__eq__` holds exactly when the two Teams agree on
cached size, limit, team set, mixed set and the KEY SET of the alliance dict
(stored levels are not compared), and `copy()` produces an equal Team whose
state is an independent value. -/
theorem c8_value_semantics : ∀ t u : Team,
    (Team.pyEq t u = true ↔
      (t.size = u.size ∧ t.limit = u.limit ∧ t.alliances.team = u.alliances.team ∧
        t.alliances.mixed = u.alliances.mixed ∧
        t.alliances.keyFinset = u.alliances.keyFinset)) ∧
    Team.copy t = t := by
  intro t u
  constructor
  · unfold Team.pyEq TeamAlliances.pyEq
    simp only [Bool.and_eq_true, decide_eq_true_eq]
    tauto
  · unfold Team.copy TeamAlliances.copy
    simp

theorem brutesLo_step : increaseAux brutesLo (teamMax emptyDb) [brutes] = some [brutesHi] := by
  decide

theorem brutesHi_step : increaseAux brutesHi (teamMax emptyDb) [brutes] = some [brutesLo] := by
  decide

theorem brutes_cycle : ∀ n : Nat,
    recursiveIncreaseFuel [brutes] (teamMax emptyDb) n brutesLo = none ∧
    recursiveIncreaseFuel [brutes] (teamMax emptyDb) n brutesHi = none := by
  intro n
  induction n with
  | zero => exact ⟨rfl, rfl⟩
  | succ n ih =>
    constructor
    · rw [recursiveIncreaseFuel, brutesLo_step]
      simp [ih.2]
    · rw [recursiveIncreaseFuel, brutesHi_step]
      simp [ih.1]

/-- C2 (refuted by the code): `recursive_increase` need not terminate.  The
reachable team `brutesLo` (obtained by `add(brutes, 2)` then `add(brutes, 1)`
on an empty team, which leaves a stale cached size) makes `team_max` alternate
between two states forever — every fuel-bounded unfolding of the recursion
runs out of fuel, so the source recursion never yields anything. -/
theorem c2_recursive_increase_diverges :
    (Team.empty 10).add emptyDb brutes 2 = Outcome.ok brutes2 ∧
    brutes2.add emptyDb brutes 1 = Outcome.ok brutesLo ∧
    ∀ n : Nat, recursiveIncreaseFuel [brutes] (teamMax emptyDb) n brutesLo = none :=
  ⟨by decide, by decide, fun n => (brutes_cycle n).1⟩

/-! ### C7: the `increase` characterization -/

theorem increaseAux_spec (t : Team) (fn : Team → Alliance → Outcome) :
    ∀ cands : List Alliance, (∀ a ∈ cands, (fn t.copy a).isNameErr = false) →
    ∃ l : List Team, increaseAux t fn cands = some l ∧
      ∀ u, u ∈ l ↔ ∃ a ∈ cands, fn t.copy a = Outcome.ok u ∧ Team.pyEq u t = false := by
  intro cands
  induction cands with
  | nil =>
    intro _
    exact ⟨[], rfl, by simp⟩
  | cons a rest ih =>
    intro hnn
    obtain ⟨l, hl, hmem⟩ := ih (fun b hb => hnn b (List.mem_cons_of_mem a hb))
    cases hfa : fn t.copy a with
    | ok v =>
      by_cases hveq : Team.pyEq v t = true
      · refine ⟨l, ?_, ?_⟩
        · unfold increaseAux
          rw [hfa, hl]
          simp [hveq]
        · intro u
          rw [hmem u]
          constructor
          · rintro ⟨b, hb, h1, h2⟩
            exact ⟨b, List.mem_cons_of_mem a hb, h1, h2⟩
          · rintro ⟨b, hb, h1, h2⟩
            rcases List.mem_cons.1 hb with rfl | hb
            · rw [hfa] at h1
              injection h1 with h3
              rw [h3] at hveq
              rw [hveq] at h2
              cases h2
            · exact ⟨b, hb, h1, h2⟩
      · refine ⟨v :: l, ?_, ?_⟩
        · unfold increaseAux
          rw [hfa, hl]
          simp [hveq]
        · intro u
          simp only [List.mem_cons]
          constructor
          · rintro (rfl | hu)
            · exact ⟨a, Or.inl rfl, hfa, Bool.eq_false_iff.2 hveq⟩
            · obtain ⟨b, hb, h1, h2⟩ := (hmem u).1 hu
              exact ⟨b, Or.inr hb, h1, h2⟩
          · rintro ⟨b, hb, h1, h2⟩
            rcases hb with rfl | hb
            · rw [hfa] at h1
              injection h1 with h3
              exact Or.inl h3.symm
            · exact Or.inr ((hmem u).2 ⟨b, hb, h1, h2⟩)
    | capacityError v =>
      refine ⟨l, ?_, ?_⟩
      · unfold increaseAux
        rw [hfa, hl]
      · intro u
        rw [hmem u]
        constructor
        · rintro ⟨b, hb, h1, h2⟩
          exact ⟨b, List.mem_cons_of_mem a hb, h1, h2⟩
        · rintro ⟨b, hb, h1, h2⟩
          rcases List.mem_cons.1 hb with rfl | hb
          · rw [hfa] at h1
            cases h1
          · exact ⟨b, hb, h1, h2⟩
    | compositionError v =>
      refine ⟨l, ?_, ?_⟩
      · unfold increaseAux
        rw [hfa, hl]
      · intro u
        rw [hmem u]
        constructor
        · rintro ⟨b, hb, h1, h2⟩
          exact ⟨b, List.mem_cons_of_mem a hb, h1, h2⟩
        · rintro ⟨b, hb, h1, h2⟩
          rcases List.mem_cons.1 hb with rfl | hb
          · rw [hfa] at h1
            cases h1
          · exact ⟨b, hb, h1, h2⟩
    | nameError v =>
      have := hnn a (List.mem_cons_self a rest)
      rw [hfa] at this
      cases this

/-- C7: `increase` semantics.  For any Team, candidate list and upgrade rule
whose application to a copy of the Team never crashes with a `NameError`, the
filtered sequence `_increase` succeeds and contains exactly the Teams produced
by applying the rule to an independent copy per candidate, skipping candidates
that raise either error, and keeping only results value-unequal to the
original; `increase` yields the original Team alone exactly when that filtered
sequence is empty, and otherwise yields the filtered sequence itself. -/
theorem c7_increase_spec (t : Team) (cands : List Alliance) (fn : Team → Alliance → Outcome)
    (hnn : ∀ a ∈ cands, (fn t.copy a).isNameErr = false) :
    ∃ l : List Team,
      increaseAux t fn cands = some l ∧
      (∀ u, u ∈ l ↔ ∃ a ∈ cands, fn t.copy a = Outcome.ok u ∧ Team.pyEq u t = false) ∧
      (l = [] → t.increase cands fn = some [t]) ∧
      (l ≠ [] → t.increase cands fn = some l) := by
  obtain ⟨l, hl, hmem⟩ := increaseAux_spec t fn cands hnn
  refine ⟨l, hl, hmem, ?_, ?_⟩
  · intro h
    subst h
    unfold Team.increase
    rw [hl]
    rfl
  · intro h
    unfold Team.increase
    rw [hl]
    have hne : l.isEmpty = false := by
      cases l with
      | nil => exact absurd rfl h
      | cons x xs => rfl
    simp only [iterOr, hne, Option.map_some', Bool.false_eq_true, if_false]

/-- C7 witness: the characterization applied to the three-candidate scenario —
`demons` raises a capacity error, `scrappies` succeeds with a new value,
`knights` succeeds but returns a Team equal to the original — and `increase`
yields exactly the one genuinely new Team (not three, not the sentinel). -/
theorem c7_increase_witness :
    (∀ a ∈ [demons, scrappies, knights],
        (teamMax emptyDb knights2.copy a).isNameErr = false) ∧
    (∃ l : List Team,
      increaseAux knights2 (teamMax emptyDb) [demons, scrappies, knights] = some l ∧
      (∀ u, u ∈ l ↔ ∃ a ∈ [demons, scrappies, knights],
          teamMax emptyDb knights2.copy a = Outcome.ok u ∧ Team.pyEq u knights2 = false) ∧
      (l = [] →
        knights2.increase [demons, scrappies, knights] (teamMax emptyDb) = some [knights2]) ∧
      (l ≠ [] →
        knights2.increase [demons, scrappies, knights] (teamMax emptyDb) = some l)) ∧
    knights2.increase [demons, scrappies, knights] (teamMax emptyDb) = some [knightsScrappies] := by
  refine ⟨by decide, ?_, by decide⟩
  exact c7_increase_spec knights2 [demons, scrappies, knights] (teamMax emptyDb) (by decide)

/-! ### C1: what error-raising mutations preserve -/

theorem addLevels_error_state (db : HeroDb) (t : Team) (a : Alliance) (levels : List Nat)
    (u : Team)
    (h : t.addLevels db a levels = Outcome.capacityError u ∨
         t.addLevels db a levels = Outcome.compositionError u) :
    u.alliances = t.alliances.materialize a ∧ u.limit = t.limit := by
  simp only [Team.addLevels] at h
  rcases h with h | h
  · split at h
    · split at h
      · injection h with h2
        exact ⟨by rw [← h2], by rw [← h2]⟩
      · exact Outcome.noConfusion h
    · split at h
      · injection h with h2
        exact ⟨by rw [← h2], by rw [← h2]⟩
      · split at h
        · injection h with h2
          exact ⟨by rw [← h2], by rw [← h2]⟩
        · split at h
          · exact Outcome.noConfusion h
          · exact Outcome.noConfusion h
  · split at h
    · split at h
      · exact Outcome.noConfusion h
      · exact Outcome.noConfusion h
    · split at h
      · exact Outcome.noConfusion h
      · split at h
        · exact Outcome.noConfusion h
        · split at h
          · exact Outcome.noConfusion h
          · injection h with h2
            exact ⟨by rw [← h2], by rw [← h2]⟩

theorem addHero_error_state (db : HeroDb) (t : Team) (h0 : String) (u : Team)
    (h : t.addHero db h0 = Outcome.capacityError u ∨
         t.addHero db h0 = Outcome.compositionError u) :
    u = t := by
  simp only [Team.addHero] at h
  rcases h with h | h
  · split at h
    · injection h with h2
      exact h2.symm
    · split at h
      · exact Outcome.noConfusion h
      · exact Outcome.noConfusion h
  · split at h
    · exact Outcome.noConfusion h
    · split at h
      · exact Outcome.noConfusion h
      · injection h with h2
        exact h2.symm

/-- C1 counterexample: the Team state is not bit-for-bit preserved across an
error-raising mutation.  `add(savants, 5)` on an empty team raises a
composition error (only two savants heroes exist for the five required), after
which the cached `Team.size` is 5 instead of 0 and the alliance dict contains
the lazily materialized `savants` key that was absent before. -/
theorem c1_not_bit_for_bit :
    (Team.empty 10).add emptyDb savants 5 = Outcome.compositionError savantsErr ∧
    savantsErr.size = 5 ∧ (Team.empty 10).size = 0 ∧
    savantsErr.alliances.keyFinset = {savants} ∧
    (Team.empty 10).alliances.keyFinset = ∅ := by decide

/-- C1 as amended: every `add`, `add_max` or `add_hero` call that raises a
capacity or composition error leaves the team set, the mixed set, every
faction's stored level (an absent faction reading as level 0), and the
computed `alliances.size` unchanged, and preserves `limit`; however the key
set of the alliance dict may additionally gain the target faction (at level 0,
from the lazy `__missing__` materialization, which the pre-snapshot placement
of `prev_tas` keeps even after rollback), and the cached `Team.size` field is
not restored (`self.size` is assigned before `_post_check` can fail). -/
theorem c1_rollback (db : HeroDb) (t : Team) (m : Mut) (u : Team)
    (h : applyMut db t m = Outcome.capacityError u ∨
         applyMut db t m = Outcome.compositionError u) :
    u.alliances.team = t.alliances.team ∧
    u.alliances.mixed = t.alliances.mixed ∧
    (∀ b : Alliance, u.alliances.level b = t.alliances.level b) ∧
    u.alliances.size = t.alliances.size ∧
    u.limit = t.limit ∧
    t.alliances.keyFinset ⊆ u.alliances.keyFinset ∧
    u.alliances.keyFinset ⊆ t.alliances.keyFinset ∪ mutKeys m := by
  cases m with
  | add a lvl =>
    simp only [applyMut, Team.add] at h
    obtain ⟨ha, hl⟩ := addLevels_error_state db t a _ u h
    refine ⟨by rw [ha, team_materialize], by rw [ha, mixed_materialize],
      fun b => by rw [ha, level_materialize], by rw [ha, size_materialize], hl, ?_, ?_⟩
    · rw [ha]
      exact keyFinset_materialize_subset _ _
    · rw [ha]
      refine (keyFinset_materialize_subset_insert _ _).trans ?_
      rw [Finset.insert_eq, Finset.union_comm]
      exact subset_rfl
  | addMax a =>
    simp only [applyMut, Team.addMax] at h
    obtain ⟨ha, hl⟩ := addLevels_error_state db t a _ u h
    refine ⟨by rw [ha, team_materialize], by rw [ha, mixed_materialize],
      fun b => by rw [ha, level_materialize], by rw [ha, size_materialize], hl, ?_, ?_⟩
    · rw [ha]
      exact keyFinset_materialize_subset _ _
    · rw [ha]
      refine (keyFinset_materialize_subset_insert _ _).trans ?_
      rw [Finset.insert_eq, Finset.union_comm]
      exact subset_rfl
  | addHero h0 =>
    simp only [applyMut] at h
    have hu := addHero_error_state db t h0 u h
    subst hu
    exact ⟨rfl, rfl, fun _ => rfl, rfl, rfl, subset_rfl, Finset.subset_union_left⟩

/-- C1 witness: the amended rollback facts at the concrete composition-error
call `add(savants, 5)` on an empty team. -/
theorem c1_rollback_witness :
    ((Team.empty 10).add emptyDb savants 5 = Outcome.compositionError savantsErr) ∧
    savantsErr.alliances.team = (Team.empty 10).alliances.team ∧
    savantsErr.alliances.size = (Team.empty 10).alliances.size := by
  refine ⟨by decide, ?_, ?_⟩
  · exact (c1_rollback emptyDb (Team.empty 10) (Mut.add savants 5) savantsErr
      (Or.inr (by decide))).1
  · exact (c1_rollback emptyDb (Team.empty 10) (Mut.add savants 5) savantsErr
      (Or.inr (by decide))).2.2.2.1

/-! ### Facts about the convergence pass and the commit state -/

theorem mem_unionList {x : String} {L : List (Finset String)} :
    x ∈ unionList L ↔ ∃ f ∈ L, x ∈ f := by
  induction L with
  | nil => simp [unionList]
  | cons f rest ih => simp [unionList, ih]

theorem unionList_subset {L : List (Finset String)} {X : Finset String}
    (h : ∀ f ∈ L, f ⊆ X) : unionList L ⊆ X := by
  intro x hx
  obtain ⟨f, hf, hxf⟩ := mem_unionList.1 hx
  exact h f hf hxf

theorem subset_unionList {L : List (Finset String)} {f : Finset String} (h : f ∈ L) :
    f ⊆ unionList L :=
  fun x hx => mem_unionList.2 ⟨f, h, hx⟩

theorem unionList_eq_empty {L : List (Finset String)} (h : ∀ f ∈ L, f = ∅) :
    unionList L = ∅ :=
  Finset.subset_empty.1 (unionList_subset (fun f hf => (h f hf) ▸ subset_rfl))

theorem heroes_subset_keysUnion (s : TeamAlliances) (e : Alliance × Nat) (he : e ∈ s.entries) :
    e.1.heroes ⊆ keysUnion s := by
  unfold keysUnion
  refine Finset.subset_biUnion_of_mem Alliance.heroes ?_
  unfold TeamAlliances.keyFinset
  simp only [List.mem_toFinset, List.mem_map]
  exact ⟨e, he, rfl⟩

theorem mixPromote_disjoint_pool (s : TeamAlliances) : ∀ x ∈ mixPromote s, x ∉ s.pool := by
  intro x hx
  obtain ⟨f, hf, hxf⟩ := mem_unionList.1 hx
  obtain ⟨e, _, hef⟩ := List.mem_map.1 hf
  rw [← hef] at hxf
  exact (Finset.mem_sdiff.1 hxf).2

theorem mixPromote_subset_keysUnion (s : TeamAlliances) : mixPromote s ⊆ keysUnion s := by
  refine unionList_subset ?_
  intro f hf
  obtain ⟨e, he, hef⟩ := List.mem_map.1 hf
  rw [← hef]
  exact (Finset.sdiff_subset).trans (heroes_subset_keysUnion s e (List.mem_of_mem_filter he))

theorem teamPromote_subset_mixed (s : TeamAlliances) : teamPromote s ⊆ s.mixed := by
  refine unionList_subset ?_
  intro f hf
  obtain ⟨e, he, hef⟩ := List.mem_map.1 hf
  rw [← hef]
  exact Finset.inter_subset_right

theorem entries_postAddMixed (s : TeamAlliances) : (postAddMixed s).entries = s.entries := rfl

theorem team_postAddMixed (s : TeamAlliances) : (postAddMixed s).team = s.team := rfl

theorem mixed_postAddMixed (s : TeamAlliances) :
    (postAddMixed s).mixed = s.mixed ∪ mixPromote s := rfl

theorem pool_postAddMixed (s : TeamAlliances) :
    (postAddMixed s).pool = s.pool ∪ mixPromote s := by
  unfold TeamAlliances.pool postAddMixed
  simp only
  rw [Finset.union_assoc]

theorem entries_postAddTeam (s : TeamAlliances) : (postAddTeam s).entries = s.entries := rfl

theorem team_postAddTeam (s : TeamAlliances) :
    (postAddTeam s).team = s.team ∪ teamPromote s := rfl

theorem mixed_postAddTeam (s : TeamAlliances) :
    (postAddTeam s).mixed = s.mixed \ teamPromote s := rfl

theorem pool_postAddTeam (s : TeamAlliances) : (postAddTeam s).pool = s.pool := by
  unfold TeamAlliances.pool postAddTeam
  simp only
  ext x
  simp only [Finset.mem_union, Finset.mem_sdiff]
  constructor
  · rintro ((hx | hx) | ⟨hx, _⟩)
    · exact Or.inl hx
    · exact Or.inr (teamPromote_subset_mixed s hx)
    · exact Or.inr hx
  · rintro (hx | hx)
    · exact Or.inl (Or.inl hx)
    · by_cases hxp : x ∈ teamPromote s
      · exact Or.inl (Or.inr hxp)
      · exact Or.inr ⟨hx, hxp⟩

theorem team_postAddAllianceStep (db : HeroDb) (s : TeamAlliances) (a : Alliance) :
    (postAddAllianceStep db s a).team = s.team := by
  simp only [postAddAllianceStep]
  split
  · split
    · rw [team_set, team_materialize]
    · rw [team_materialize]
  · rfl

theorem mixed_postAddAllianceStep (db : HeroDb) (s : TeamAlliances) (a : Alliance) :
    (postAddAllianceStep db s a).mixed = s.mixed := by
  simp only [postAddAllianceStep]
  split
  · split
    · rw [mixed_set, mixed_materialize]
    · rw [mixed_materialize]
  · rfl

theorem pool_postAddAllianceStep (db : HeroDb) (s : TeamAlliances) (a : Alliance) :
    (postAddAllianceStep db s a).pool = s.pool := by
  unfold TeamAlliances.pool
  rw [team_postAddAllianceStep, mixed_postAddAllianceStep]

theorem keyFinset_subset_postAddAllianceStep (db : HeroDb) (s : TeamAlliances) (a : Alliance) :
    s.keyFinset ⊆ (postAddAllianceStep db s a).keyFinset := by
  simp only [postAddAllianceStep]
  split
  · split
    · exact (keyFinset_materialize_subset s a).trans (keyFinset_subset_set _ a _)
    · exact keyFinset_materialize_subset s a
  · exact subset_rfl

theorem team_foldl_step (db : HeroDb) :
    ∀ (L : List Alliance) (s : TeamAlliances),
      (L.foldl (postAddAllianceStep db) s).team = s.team := by
  intro L
  induction L with
  | nil => intro s; rfl
  | cons a rest ih =>
    intro s
    simp only [List.foldl_cons]
    rw [ih, team_postAddAllianceStep]

theorem mixed_foldl_step (db : HeroDb) :
    ∀ (L : List Alliance) (s : TeamAlliances),
      (L.foldl (postAddAllianceStep db) s).mixed = s.mixed := by
  intro L
  induction L with
  | nil => intro s; rfl
  | cons a rest ih =>
    intro s
    simp only [List.foldl_cons]
    rw [ih, mixed_postAddAllianceStep]

theorem keyFinset_subset_foldl_step (db : HeroDb) :
    ∀ (L : List Alliance) (s : TeamAlliances),
      s.keyFinset ⊆ (L.foldl (postAddAllianceStep db) s).keyFinset := by
  intro L
  induction L with
  | nil => intro s; exact subset_rfl
  | cons a rest ih =>
    intro s
    simp only [List.foldl_cons]
    exact (keyFinset_subset_postAddAllianceStep db s a).trans (ih _)

theorem team_postAddAlliance (db : HeroDb) (s : TeamAlliances) :
    (postAddAlliance db s).team = s.team := team_foldl_step db _ s

theorem mixed_postAddAlliance (db : HeroDb) (s : TeamAlliances) :
    (postAddAlliance db s).mixed = s.mixed := mixed_foldl_step db _ s

theorem pool_postAddAlliance (db : HeroDb) (s : TeamAlliances) :
    (postAddAlliance db s).pool = s.pool := by
  unfold TeamAlliances.pool
  rw [team_postAddAlliance, mixed_postAddAlliance]

theorem keyFinset_subset_postAddAlliance (db : HeroDb) (s : TeamAlliances) :
    s.keyFinset ⊆ (postAddAlliance db s).keyFinset := keyFinset_subset_foldl_step db _ s

theorem team_postAdd (db : HeroDb) (s : TeamAlliances) :
    (postAdd db s).team = s.team ∪ teamPromote (postAddMixed s) := by
  unfold postAdd
  rw [team_postAddAlliance, team_postAddTeam, team_postAddMixed]

theorem mixed_postAdd (db : HeroDb) (s : TeamAlliances) :
    (postAdd db s).mixed = (s.mixed ∪ mixPromote s) \ teamPromote (postAddMixed s) := by
  unfold postAdd
  rw [mixed_postAddAlliance, mixed_postAddTeam, mixed_postAddMixed]

theorem pool_postAdd (db : HeroDb) (s : TeamAlliances) :
    (postAdd db s).pool = s.pool ∪ mixPromote s := by
  unfold postAdd
  rw [pool_postAddAlliance, pool_postAddTeam, pool_postAddMixed]

theorem keyFinset_subset_postAdd (db : HeroDb) (s : TeamAlliances) :
    s.keyFinset ⊆ (postAdd db s).keyFinset := by
  unfold postAdd
  have h1 : s.keyFinset = (postAddTeam (postAddMixed s)).keyFinset := rfl
  rw [h1]
  exact keyFinset_subset_postAddAlliance db _

theorem team_commitState (s : TeamAlliances) (a : Alliance) (lvl : Nat) :
    (commitState s a lvl).team = s.team := by
  unfold commitState
  rw [team_set]
  exact team_materialize s a

theorem mixed_commitState (s : TeamAlliances) (a : Alliance) (lvl : Nat) :
    (commitState s a lvl).mixed = s.mixed ∪ addWorkingSet s a := by
  unfold commitState
  rw [mixed_set]
  simp only [mixed_materialize]

theorem pool_commitState (s : TeamAlliances) (a : Alliance) (lvl : Nat) :
    (commitState s a lvl).pool = s.pool ∪ addWorkingSet s a := by
  unfold TeamAlliances.pool
  rw [team_commitState, mixed_commitState, Finset.union_assoc]

theorem keyFinset_subset_commitState (s : TeamAlliances) (a : Alliance) (lvl : Nat) :
    s.keyFinset ⊆ (commitState s a lvl).keyFinset := by
  unfold commitState
  refine (keyFinset_materialize_subset s a).trans ?_
  have h1 : (s.materialize a).keyFinset =
      ({ s.materialize a with mixed := (s.materialize a).mixed ∪ addWorkingSet s a } :
        TeamAlliances).keyFinset := rfl
  rw [h1]
  exact keyFinset_subset_set _ a lvl

theorem keysUnion_mono {s u : TeamAlliances} (h : s.keyFinset ⊆ u.keyFinset) :
    keysUnion s ⊆ keysUnion u := by
  unfold keysUnion
  exact Finset.biUnion_subset_biUnion_of_subset_left Alliance.heroes h

theorem foldl_overlap_subset (s : TeamAlliances) (a : Alliance) :
    ∀ (L : List (Alliance × Nat)) (acc : Finset String × Nat),
      (∀ e ∈ L, e.1.heroes ⊆ keysUnion s) → acc.1 ⊆ s.pool ∪ keysUnion s →
      (L.foldl (fun acc e =>
        if e.1 ≠ a ∧ 0 < aSize s e.1 e.2 then
          (acc.1 ∪ e.1.heroes ∩ a.heroes,
           acc.2 + min (aSize s e.1 e.2) (((e.1.heroes ∩ a.heroes) \ acc.1).card))
        else acc) acc).1 ⊆ s.pool ∪ keysUnion s := by
  intro L
  induction L with
  | nil => intro acc _ hacc; exact hacc
  | cons e rest ih =>
    intro acc hsub hacc
    simp only [List.foldl_cons]
    refine ih _ (fun x hx => hsub x (List.mem_cons_of_mem e hx)) ?_
    split
    · refine Finset.union_subset hacc ?_
      refine Finset.Subset.trans Finset.inter_subset_left ?_
      exact (hsub e (List.mem_cons_self e rest)).trans Finset.subset_union_right
    · exact hacc

theorem addOverlap_fst_subset (s : TeamAlliances) (a : Alliance) :
    (addOverlap s a).1 ⊆ s.pool ∪ keysUnion s := by
  unfold addOverlap
  split
  · exact Finset.subset_union_left
  · exact foldl_overlap_subset s a s.entries (s.pool, 0)
      (fun e he => heroes_subset_keysUnion s e he) Finset.subset_union_left

theorem addWorkingSet_subset (s : TeamAlliances) (a : Alliance) :
    addWorkingSet s a ⊆ s.pool ∪ keysUnion s :=
  Finset.sdiff_subset.trans (addOverlap_fst_subset s a)

theorem addWorkingSet_disjoint_pool (s : TeamAlliances) (a : Alliance) :
    ∀ x ∈ addWorkingSet s a, x ∉ s.pool := by
  intro x hx
  exact (Finset.mem_sdiff.1 hx).2

theorem disjoint_postAdd (db : HeroDb) (s : TeamAlliances)
    (hd : s.team ∩ s.mixed = ∅) :
    (postAdd db s).team ∩ (postAdd db s).mixed = ∅ := by
  rw [team_postAdd, mixed_postAdd, Finset.eq_empty_iff_forall_not_mem]
  intro x hx
  simp only [Finset.mem_inter, Finset.mem_sdiff, Finset.mem_union] at hx
  obtain ⟨hxt | hxt, (hxm | hxm), hxnt⟩ := hx
  · have h2 : x ∈ s.team ∩ s.mixed := Finset.mem_inter.2 ⟨hxt, hxm⟩
    rw [hd] at h2
    exact Finset.not_mem_empty x h2
  · exact mixPromote_disjoint_pool s x hxm (Finset.mem_union_left _ hxt)
  · exact hxnt hxt
  · exact hxnt hxt

theorem team_heroCommit (s : TeamAlliances) (h : String) :
    (heroCommit s h).team = s.team ∪ {h} := rfl

theorem mixed_heroCommit (s : TeamAlliances) (h : String) :
    (heroCommit s h).mixed = s.mixed \ (s.team ∪ {h}) := rfl

theorem entries_heroCommit (s : TeamAlliances) (h : String) :
    (heroCommit s h).entries = s.entries := rfl

theorem keyFinset_heroCommit (s : TeamAlliances) (h : String) :
    (heroCommit s h).keyFinset = s.keyFinset := rfl

theorem disjoint_heroCommit (s : TeamAlliances) (h : String) :
    (heroCommit s h).team ∩ (heroCommit s h).mixed = ∅ := by
  rw [team_heroCommit, mixed_heroCommit, Finset.eq_empty_iff_forall_not_mem]
  intro x hx
  simp only [Finset.mem_inter, Finset.mem_sdiff] at hx
  exact hx.2.2 hx.1

theorem pool_heroCommit (s : TeamAlliances) (h : String) :
    (heroCommit s h).pool = s.pool ∪ {h} := by
  unfold TeamAlliances.pool heroCommit
  simp only
  ext x
  simp only [Finset.mem_union, Finset.mem_sdiff, Finset.mem_singleton]
  tauto

/-! ### Inversion of the success paths -/

theorem addLevels_ok_state (db : HeroDb) (t : Team) (a : Alliance) (levels : List Nat)
    (u : Team) (h : t.addLevels db a levels = Outcome.ok u) :
    ∃ lvl sz : Nat,
      u = ⟨sz, postAdd db (commitState t.alliances a lvl), t.limit⟩ ∧
      (commitState t.alliances a lvl).size ≤ t.limit ∧
      postCheckOk (commitState t.alliances a lvl) = true := by
  simp only [Team.addLevels] at h
  split at h
  · split at h
    · exact Outcome.noConfusion h
    · exact Outcome.noConfusion h
  · split at h
    · exact Outcome.noConfusion h
    · split at h
      · exact Outcome.noConfusion h
      · split at h
        · rename_i lvl sz hloop h1 h2 h3
          injection h with h4
          exact ⟨lvl, sz, h4.symm, Nat.not_lt.1 h2, h3⟩
        · exact Outcome.noConfusion h

theorem addHero_ok_state (db : HeroDb) (t : Team) (h0 : String) (u : Team)
    (h : t.addHero db h0 = Outcome.ok u) :
    u = { t with alliances := postAdd db (heroCommit t.alliances h0) } ∧
    postCheckOk (heroCommit t.alliances h0) = true ∧
    ((t.alliances.entries.any
        (fun e => 0 < aSize t.alliances e.1 e.2 ∧ h0 ∈ aHeroes t.alliances e.1)) = true ∨
      t.alliances.size + 1 ≤ t.limit) := by
  simp only [Team.addHero] at h
  split at h
  · exact Outcome.noConfusion h
  · rename_i hguard
    rw [not_and_or, not_not, Nat.not_lt] at hguard
    split at h
    · rename_i hpc
      injection h with h4
      exact ⟨h4.symm, hpc, hguard⟩
    · exact Outcome.noConfusion h

theorem commitState_disjoint (s : TeamAlliances) (a : Alliance) (lvl : Nat)
    (hd : s.team ∩ s.mixed = ∅) :
    (commitState s a lvl).team ∩ (commitState s a lvl).mixed = ∅ := by
  rw [team_commitState, mixed_commitState, Finset.eq_empty_iff_forall_not_mem]
  intro x hx
  simp only [Finset.mem_inter, Finset.mem_union] at hx
  obtain ⟨hxt, hxm | hxw⟩ := hx
  · have h2 : x ∈ s.team ∩ s.mixed := Finset.mem_inter.2 ⟨hxt, hxm⟩
    rw [hd] at h2
    exact Finset.not_mem_empty x h2
  · exact addWorkingSet_disjoint_pool s a x hxw (Finset.mem_union_left _ hxt)

theorem postAdd_pool_keysUnion (db : HeroDb) (s : TeamAlliances) (H : Finset String)
    (hp : s.pool ⊆ H ∪ keysUnion s) :
    (postAdd db s).pool ⊆ H ∪ keysUnion (postAdd db s) := by
  rw [pool_postAdd]
  have hks : keysUnion s ⊆ keysUnion (postAdd db s) :=
    keysUnion_mono (keyFinset_subset_postAdd db s)
  refine Finset.union_subset ?_ ?_
  · exact hp.trans (Finset.union_subset_union_right hks)
  · exact (mixPromote_subset_keysUnion s).trans (hks.trans Finset.subset_union_right)

theorem commitState_pool_keysUnion (s : TeamAlliances) (a : Alliance) (lvl : Nat)
    (H : Finset String) (hp : s.pool ⊆ H ∪ keysUnion s) :
    (commitState s a lvl).pool ⊆ H ∪ keysUnion (commitState s a lvl) := by
  rw [pool_commitState]
  have hks : keysUnion s ⊆ keysUnion (commitState s a lvl) :=
    keysUnion_mono (keyFinset_subset_commitState s a lvl)
  refine Finset.union_subset ?_ ?_
  · exact hp.trans (Finset.union_subset_union_right hks)
  · refine (addWorkingSet_subset s a).trans (Finset.union_subset ?_ ?_)
    · exact hp.trans (Finset.union_subset_union_right hks)
    · exact hks.trans Finset.subset_union_right

theorem heroCommit_pool_keysUnion (s : TeamAlliances) (h0 : String)
    (H : Finset String) (hp : s.pool ⊆ H ∪ keysUnion s) :
    (heroCommit s h0).pool ⊆ (H ∪ {h0}) ∪ keysUnion (heroCommit s h0) := by
  rw [pool_heroCommit]
  have hkeq : keysUnion (heroCommit s h0) = keysUnion s := by
    unfold keysUnion
    rw [keyFinset_heroCommit]
  rw [hkeq]
  refine Finset.union_subset ?_ ?_
  · refine hp.trans (Finset.union_subset ?_ ?_)
    · exact (Finset.subset_union_left.trans Finset.subset_union_left :
        H ⊆ (H ∪ {h0}) ∪ keysUnion s)
    · exact Finset.subset_union_right
  · exact (Finset.subset_union_right.trans Finset.subset_union_left :
      ({h0} : Finset String) ⊆ (H ∪ {h0}) ∪ keysUnion s)

/-- C5: disjointness and pool provenance.  A successful public mutation on a
Team whose `team` and `mixed` sets are disjoint and whose pool lies inside the
directly-added hero set `H` plus the union of the present factions' member
sets keeps `team ∩ mixed = ∅`, and its pool stays inside `H` (extended by the
hero the mutation adds directly, if any) plus the union of the resulting
state's present factions' member sets. -/
theorem c5_disjoint_pool (db : HeroDb) (t : Team) (m : Mut) (u : Team) (H : Finset String)
    (hd : t.alliances.team ∩ t.alliances.mixed = ∅)
    (hp : t.alliances.pool ⊆ H ∪ keysUnion t.alliances)
    (h : applyMut db t m = Outcome.ok u) :
    u.alliances.team ∩ u.alliances.mixed = ∅ ∧
    u.alliances.pool ⊆ (H ∪ mutHeroes m) ∪ keysUnion u.alliances := by
  cases m with
  | add a lvl =>
    simp only [applyMut, Team.add] at h
    obtain ⟨lvl2, sz, hu, -, -⟩ := addLevels_ok_state db t a _ u h
    subst hu
    refine ⟨disjoint_postAdd db _ (commitState_disjoint t.alliances a lvl2 hd), ?_⟩
    refine (postAdd_pool_keysUnion db _ H
      (commitState_pool_keysUnion t.alliances a lvl2 H hp)).trans ?_
    exact Finset.union_subset_union_left Finset.subset_union_left
  | addMax a =>
    simp only [applyMut, Team.addMax] at h
    obtain ⟨lvl2, sz, hu, -, -⟩ := addLevels_ok_state db t a _ u h
    subst hu
    refine ⟨disjoint_postAdd db _ (commitState_disjoint t.alliances a lvl2 hd), ?_⟩
    refine (postAdd_pool_keysUnion db _ H
      (commitState_pool_keysUnion t.alliances a lvl2 H hp)).trans ?_
    exact Finset.union_subset_union_left Finset.subset_union_left
  | addHero h0 =>
    simp only [applyMut] at h
    obtain ⟨hu, -, -⟩ := addHero_ok_state db t h0 u h
    subst hu
    refine ⟨disjoint_postAdd db _ (disjoint_heroCommit t.alliances h0), ?_⟩
    exact postAdd_pool_keysUnion db _ (H ∪ {h0})
      (heroCommit_pool_keysUnion t.alliances h0 H hp)

/-- C5 witness: the disjointness and provenance facts at a concrete successful
mutation (`add(brutes, 2)` on an empty team, with no directly added heroes). -/
theorem c5_disjoint_pool_witness :
    ((Team.empty 10).alliances.team ∩ (Team.empty 10).alliances.mixed = ∅) ∧
    ((Team.empty 10).alliances.pool ⊆ ∅ ∪ keysUnion (Team.empty 10).alliances) ∧
    (applyMut emptyDb (Team.empty 10) (Mut.add brutes 2) = Outcome.ok brutes2) ∧
    (brutes2.alliances.team ∩ brutes2.alliances.mixed = ∅ ∧
      brutes2.alliances.pool ⊆ (∅ ∪ mutHeroes (Mut.add brutes 2)) ∪
        keysUnion brutes2.alliances) := by
  refine ⟨by decide, by decide, by decide, ?_⟩
  exact c5_disjoint_pool emptyDb (Team.empty 10) (Mut.add brutes 2) brutes2 ∅
    (by decide) (by decide) (by decide)

/-! ### Size bounds for the convergence pass (C4) -/

theorem aSize_anti {s u : TeamAlliances} (h : s.pool ⊆ u.pool) (a : Alliance) (lvl : Nat) :
    aSize u a lvl ≤ aSize s a lvl := by
  unfold aSize pSize pHeroes
  have hc : (a.heroes ∩ s.pool).card ≤ (a.heroes ∩ u.pool).card :=
    Finset.card_le_card (Finset.inter_subset_inter subset_rfl h)
  omega

theorem card_unionList_le (L : List (Finset String)) :
    (unionList L).card ≤ (L.map Finset.card).sum := by
  induction L with
  | nil => simp [unionList]
  | cons f rest ih =>
    simp only [unionList, List.map_cons, List.sum_cons]
    have h1 := Finset.card_union_le f (unionList rest)
    omega

theorem sum_map_add_le {α : Type} (f g h : α → Nat) :
    ∀ l : List α, (∀ e ∈ l, f e + g e ≤ h e) →
    (l.map f).sum + (l.map g).sum ≤ (l.map h).sum := by
  intro l
  induction l with
  | nil => intro _; simp
  | cons e rest ih =>
    intro hp
    simp only [List.map_cons, List.sum_cons]
    have h1 := hp e (List.mem_cons_self e rest)
    have h2 := ih (fun x hx => hp x (List.mem_cons_of_mem e hx))
    omega

theorem sum_map_filter_le {α : Type} (p : α → Bool) (f : α → Nat) (l : List α) :
    ((l.filter p).map f).sum ≤ (l.map f).sum := by
  induction l with
  | nil => simp
  | cons e rest ih =>
    simp only [List.filter_cons]
    split
    · simp only [List.map_cons, List.sum_cons]
      omega
    · simp only [List.map_cons, List.sum_cons]
      omega

theorem sum_one_witness {α : Type} (f g : α → Nat) :
    ∀ l : List α, (∀ e ∈ l, f e ≤ g e) →
    ∀ e0 ∈ l, f e0 + 1 ≤ g e0 → (l.map f).sum + 1 ≤ (l.map g).sum := by
  intro l
  induction l with
  | nil => intro _ e0 he0; cases he0
  | cons e rest ih =>
    intro hp e0 he0 hw
    simp only [List.map_cons, List.sum_cons]
    rcases List.mem_cons.1 he0 with rfl | he0
    · have h2 := List.sum_le_sum (fun x hx => hp x (List.mem_cons_of_mem e0 hx))
      omega
    · have h1 := hp e (List.mem_cons_self e rest)
      have h2 := ih (fun x hx => hp x (List.mem_cons_of_mem e hx)) e0 he0 hw
      omega

theorem card_inter_mixPromote (s : TeamAlliances) (e : Alliance × Nat) :
    (pHeroes (postAddMixed s) e.1).card =
      (pHeroes s e.1).card + (e.1.heroes ∩ mixPromote s).card := by
  unfold pHeroes
  rw [pool_postAddMixed, Finset.inter_union_distrib_left]
  refine Finset.card_union_of_disjoint ?_
  rw [Finset.disjoint_left]
  intro x hx1 hx2
  exact mixPromote_disjoint_pool s x ((Finset.mem_inter.1 hx2).2) ((Finset.mem_inter.1 hx1).2)

theorem aSize_mixPromote_drop (s : TeamAlliances) (e : Alliance × Nat) :
    aSize (postAddMixed s) e.1 e.2 +
      min (aSize s e.1 e.2) ((e.1.heroes ∩ mixPromote s).card) ≤ aSize s e.1 e.2 := by
  have hcard := card_inter_mixPromote s e
  unfold aSize pSize at *
  omega

theorem aH_card_le_min (s : TeamAlliances) (e : Alliance × Nat)
    (hcond : (aHeroes s e.1).card ≤ aSize s e.1 e.2) :
    (aHeroes s e.1).card ≤ min (aSize s e.1 e.2) ((e.1.heroes ∩ mixPromote s).card) ∨
    ¬ aHeroes s e.1 ⊆ mixPromote s := by
  by_cases hsub : aHeroes s e.1 ⊆ mixPromote s
  · left
    refine le_min hcond ?_
    refine Finset.card_le_card ?_
    intro x hx
    exact Finset.mem_inter.2 ⟨(Finset.mem_sdiff.1 hx).1, hsub hx⟩
  · right
    exact hsub

theorem size_postAddMixed_le (s : TeamAlliances) : (postAddMixed s).size ≤ s.size := by
  have hSle : (mixPromote s).card ≤
      (s.entries.map
        (fun e => min (aSize s e.1 e.2) ((e.1.heroes ∩ mixPromote s).card))).sum := by
    refine le_trans (card_unionList_le _) ?_
    rw [List.map_map]
    refine le_trans (List.sum_le_sum ?_) (sum_map_filter_le _ _ s.entries)
    intro e he
    have hcond : (aHeroes s e.1).card ≤ aSize s e.1 e.2 := by
      have h2 := (List.mem_filter.1 he).2
      exact of_decide_eq_true h2
    have hmem : aHeroes s e.1 ⊆ mixPromote s := by
      refine subset_unionList ?_
      exact List.mem_map.2 ⟨e, he, rfl⟩
    rcases aH_card_le_min s e hcond with h3 | h3
    · exact h3
    · exact absurd hmem h3
  have hsum : (s.entries.map (fun e => aSize (postAddMixed s) e.1 e.2)).sum +
      (s.entries.map
        (fun e => min (aSize s e.1 e.2) ((e.1.heroes ∩ mixPromote s).card))).sum ≤
      (s.entries.map (fun e => aSize s e.1 e.2)).sum :=
    sum_map_add_le _ _ _ s.entries (fun e _ => aSize_mixPromote_drop s e)
  have hmix := Finset.card_union_le s.mixed (mixPromote s)
  unfold TeamAlliances.size
  rw [entries_postAddMixed, team_postAddMixed, mixed_postAddMixed]
  omega

theorem size_postAddTeam_le (s : TeamAlliances) : (postAddTeam s).size ≤ s.size := by
  have hsub : teamPromote s ⊆ s.mixed := teamPromote_subset_mixed s
  have h1 := Finset.card_union_le s.team (teamPromote s)
  have h2 : (s.mixed \ teamPromote s).card = s.mixed.card - (teamPromote s).card :=
    Finset.card_sdiff hsub
  have h3 : (teamPromote s).card ≤ s.mixed.card := Finset.card_le_card hsub
  have h4 : ∀ e ∈ s.entries, aSize (postAddTeam s) e.1 e.2 = aSize s e.1 e.2 :=
    fun e _ => aSize_eq_of_pool _ _ (pool_postAddTeam s) e.1 e.2
  unfold TeamAlliances.size
  rw [entries_postAddTeam, team_postAddTeam, mixed_postAddTeam, List.map_congr_left h4]
  omega

theorem teamIncidence_le (db : HeroDb) (hdb : SoundDb db) (team : Finset String)
    (a : Alliance) : teamIncidence db team a ≤ (a.heroes ∩ team).card := by
  unfold teamIncidence
  have h1 : ∀ h ∈ team, (db.heroAlliances h).count a ≤ if h ∈ a.heroes then 1 else 0 := by
    intro h _
    by_cases hh : h ∈ a.heroes
    · simp only [hh, if_true]
      exact List.nodup_iff_count_le_one.1 (hdb h).1 a
    · simp only [hh, if_false, Nat.le_zero]
      rw [List.count_eq_zero]
      intro hmem
      exact hh ((hdb h).2 a hmem)
  refine le_trans (Finset.sum_le_sum h1) ?_
  rw [← Finset.card_filter]
  rw [Finset.filter_mem_eq_inter, Finset.inter_comm]

theorem tHeroes_card_le (s : TeamAlliances) (a : Alliance) :
    (tHeroes s a).card ≤ (pHeroes s a).card :=
  Finset.card_le_card (Finset.inter_subset_inter subset_rfl Finset.subset_union_left)

theorem aSize_eq_zero_of_le (s : TeamAlliances) (a : Alliance) (lvl : Nat)
    (h : a.level * lvl ≤ (pHeroes s a).card) : aSize s a lvl = 0 := by
  unfold aSize pSize
  omega

theorem size_set_le (s : TeamAlliances) (a : Alliance) (lvl : Nat)
    (h0 : aSize s a lvl = 0) : (s.set a lvl).size ≤ s.size := by
  unfold TeamAlliances.set
  split
  · unfold TeamAlliances.size
    simp only [List.map_map]
    refine Nat.add_le_add_left (List.sum_le_sum ?_) _
    intro e _
    simp only [Function.comp_apply]
    by_cases hea : e.1 = a
    · simp only [hea, if_true]
      have hz : aSize { s with
          entries := s.entries.map (fun e => if e.1 = a then (a, lvl) else e) } a lvl =
          aSize s a lvl := aSize_eq_of_pool _ _ rfl a lvl
      rw [hz, h0]
      exact Nat.zero_le _
    · simp only [hea, if_false]
      exact le_of_eq (aSize_eq_of_pool _ _ rfl e.1 e.2)
  · unfold TeamAlliances.size
    simp only [List.map_append, List.sum_append, List.map_cons, List.map_nil, List.sum_cons,
      List.sum_nil]
    have h1 : ∀ e ∈ s.entries,
        aSize { s with entries := s.entries ++ [(a, lvl)] } e.1 e.2 = aSize s e.1 e.2 :=
      fun e _ => aSize_eq_of_pool _ _ rfl e.1 e.2
    rw [List.map_congr_left h1]
    have h2 : aSize { s with entries := s.entries ++ [(a, lvl)] } a lvl = aSize s a lvl :=
      aSize_eq_of_pool _ _ rfl a lvl
    rw [h2, h0]
    omega

theorem tHeroes_materialize (s : TeamAlliances) (a b : Alliance) :
    tHeroes (s.materialize a) b = tHeroes s b := by
  unfold tHeroes
  rw [team_materialize]

theorem pHeroes_materialize (s : TeamAlliances) (a b : Alliance) :
    pHeroes (s.materialize a) b = pHeroes s b := by
  unfold pHeroes
  rw [pool_materialize]

theorem size_postAddAllianceStep_le (db : HeroDb) (hdb : SoundDb db) (s : TeamAlliances)
    (a : Alliance) : (postAddAllianceStep db s a).size ≤ s.size := by
  simp only [postAddAllianceStep]
  split
  · split
    · rename_i hlvl hlt
      have hcnt : teamIncidence db s.team a / a.level * a.level ≤ teamIncidence db s.team a :=
        Nat.div_mul_le_self _ _
      have hle : a.level * (teamIncidence db s.team a / a.level) ≤
          (pHeroes (s.materialize a) a).card := by
        rw [pHeroes_materialize]
        have h2 := teamIncidence_le db hdb s.team a
        have h3 := tHeroes_card_le s a
        unfold tHeroes at h3
        have hcomm : a.level * (teamIncidence db s.team a / a.level) =
            teamIncidence db s.team a / a.level * a.level := Nat.mul_comm _ _
        omega
      refine le_trans (size_set_le _ a _ (aSize_eq_zero_of_le _ a _ hle)) ?_
      rw [size_materialize]
    · rw [size_materialize]
  · exact le_rfl

theorem size_foldl_step_le (db : HeroDb) (hdb : SoundDb db) :
    ∀ (L : List Alliance) (s : TeamAlliances),
      (L.foldl (postAddAllianceStep db) s).size ≤ s.size := by
  intro L
  induction L with
  | nil => intro s; exact le_rfl
  | cons a rest ih =>
    intro s
    simp only [List.foldl_cons]
    exact le_trans (ih _) (size_postAddAllianceStep_le db hdb s a)

theorem size_postAddAlliance_le (db : HeroDb) (hdb : SoundDb db) (s : TeamAlliances) :
    (postAddAlliance db s).size ≤ s.size := size_foldl_step_le db hdb _ s

theorem size_postAdd_le (db : HeroDb) (hdb : SoundDb db) (s : TeamAlliances) :
    (postAdd db s).size ≤ s.size := by
  unfold postAdd
  exact le_trans (size_postAddAlliance_le db hdb _)
    (le_trans (size_postAddTeam_le _) (size_postAddMixed_le s))

theorem aSize_heroCommit_witness (s : TeamAlliances) (h0 : String) (e : Alliance × Nat)
    (hpos : 0 < aSize s e.1 e.2) (hmem : h0 ∈ aHeroes s e.1) :
    aSize (heroCommit s h0) e.1 e.2 + 1 ≤ aSize s e.1 e.2 := by
  obtain ⟨hher, hnp⟩ := Finset.mem_sdiff.1 hmem
  have hsplit : pHeroes (heroCommit s h0) e.1 = insert h0 (pHeroes s e.1) := by
    unfold pHeroes
    rw [pool_heroCommit]
    ext x
    simp only [Finset.mem_inter, Finset.mem_union, Finset.mem_insert, Finset.mem_singleton]
    constructor
    · rintro ⟨hx1, hx2 | hx2⟩
      · exact Or.inr ⟨hx1, hx2⟩
      · exact Or.inl hx2
    · rintro (rfl | ⟨hx1, hx2⟩)
      · exact ⟨hher, Or.inr rfl⟩
      · exact ⟨hx1, Or.inl hx2⟩
  have hcard : (pHeroes (heroCommit s h0) e.1).card = (pHeroes s e.1).card + 1 := by
    rw [hsplit, Finset.card_insert_of_not_mem]
    intro hx
    exact hnp (Finset.mem_inter.1 hx).2
  unfold aSize pSize at *
  omega

theorem size_heroCommit_le_succ (s : TeamAlliances) (h0 : String) :
    (heroCommit s h0).size ≤ s.size + 1 := by
  have h1 : (s.team ∪ {h0}).card ≤ s.team.card + 1 := by
    have := Finset.card_union_le s.team ({h0} : Finset String)
    simpa using this
  have h2 : (s.mixed \ (s.team ∪ {h0})).card ≤ s.mixed.card :=
    Finset.card_le_card Finset.sdiff_subset
  have h3 : ∀ e ∈ s.entries, aSize (heroCommit s h0) e.1 e.2 ≤ aSize s e.1 e.2 := by
    intro e _
    refine aSize_anti ?_ e.1 e.2
    rw [pool_heroCommit]
    exact Finset.subset_union_left
  have h4 := List.sum_le_sum h3
  unfold TeamAlliances.size
  rw [entries_heroCommit, team_heroCommit, mixed_heroCommit]
  omega

theorem size_heroCommit_le_of_witness (s : TeamAlliances) (h0 : String)
    (hw : s.entries.any (fun e => 0 < aSize s e.1 e.2 ∧ h0 ∈ aHeroes s e.1) = true) :
    (heroCommit s h0).size ≤ s.size := by
  obtain ⟨e0, he0, hcond⟩ := List.any_eq_true.1 hw
  have hcond2 : 0 < aSize s e0.1 e0.2 ∧ h0 ∈ aHeroes s e0.1 := of_decide_eq_true hcond
  have hnp : h0 ∉ s.pool := (Finset.mem_sdiff.1 hcond2.2).2
  have h1 : (s.team ∪ {h0}).card = s.team.card + 1 := by
    rw [Finset.union_comm, ← Finset.insert_eq, Finset.card_insert_of_not_mem]
    intro hx
    exact hnp (Finset.mem_union_left _ hx)
  have h2 : (s.mixed \ (s.team ∪ {h0})).card ≤ s.mixed.card :=
    Finset.card_le_card Finset.sdiff_subset
  have h3 : ∀ e ∈ s.entries, aSize (heroCommit s h0) e.1 e.2 ≤ aSize s e.1 e.2 := by
    intro e _
    refine aSize_anti ?_ e.1 e.2
    rw [pool_heroCommit]
    exact Finset.subset_union_left
  have h4 : (s.entries.map (fun e => aSize (heroCommit s h0) e.1 e.2)).sum + 1 ≤
      (s.entries.map (fun e => aSize s e.1 e.2)).sum :=
    sum_one_witness _ _ s.entries h3 e0 he0
      (aSize_heroCommit_witness s h0 e0 hcond2.1 hcond2.2)
  unfold TeamAlliances.size
  rw [entries_heroCommit, team_heroCommit, mixed_heroCommit]
  omega

/-- C4: the capacity invariant.  Under the loader's reference-graph guarantee,
any successful `add`, `add_max` or `add_hero` on a Team whose computed
`alliances.size` is within `limit` produces a Team whose computed
`alliances.size` is still within its (unchanged) `limit` — the post-commit
check bounds the committed state and the convergence pass never increases the
computed size. -/
theorem c4_capacity (db : HeroDb) (t : Team) (m : Mut) (u : Team)
    (hdb : SoundDb db) (hsz : t.alliances.size ≤ t.limit)
    (h : applyMut db t m = Outcome.ok u) :
    u.alliances.size ≤ u.limit := by
  cases m with
  | add a lvl =>
    simp only [applyMut, Team.add] at h
    obtain ⟨lvl2, sz, hu, hle, -⟩ := addLevels_ok_state db t a _ u h
    subst hu
    exact le_trans (size_postAdd_le db hdb _) hle
  | addMax a =>
    simp only [applyMut, Team.addMax] at h
    obtain ⟨lvl2, sz, hu, hle, -⟩ := addLevels_ok_state db t a _ u h
    subst hu
    exact le_trans (size_postAdd_le db hdb _) hle
  | addHero h0 =>
    simp only [applyMut] at h
    obtain ⟨hu, -, hbr⟩ := addHero_ok_state db t h0 u h
    subst hu
    rcases hbr with hbr | hbr
    · exact le_trans (size_postAdd_le db hdb _)
        (le_trans (size_heroCommit_le_of_witness t.alliances h0 hbr) hsz)
    · exact le_trans (size_postAdd_le db hdb _)
        (le_trans (size_heroCommit_le_succ t.alliances h0) hbr)

/-- C4 witness: the capacity invariant at a concrete successful mutation. -/
theorem c4_capacity_witness :
    SoundDb emptyDb ∧ (Team.empty 10).alliances.size ≤ (Team.empty 10).limit ∧
    applyMut emptyDb (Team.empty 10) (Mut.add brutes 2) = Outcome.ok brutes2 ∧
    brutes2.alliances.size ≤ brutes2.limit := by
  have hdb : SoundDb emptyDb := by
    intro h
    exact ⟨List.nodup_nil, by intro a ha; cases ha⟩
  refine ⟨hdb, by decide, by decide, ?_⟩
  exact c4_capacity emptyDb (Team.empty 10) (Mut.add brutes 2) brutes2 hdb (by decide) (by decide)

/-! ### Idempotence of the convergence pass (C9) -/

theorem mem_entries_materialize {s : TeamAlliances} {a : Alliance} {e : Alliance × Nat}
    (he : e ∈ (s.materialize a).entries) : e ∈ s.entries ∨ e = (a, 0) := by
  unfold TeamAlliances.materialize at he
  split at he
  · exact Or.inl he
  · rcases List.mem_append.1 he with h | h
    · exact Or.inl h
    · right
      simpa using h

theorem mem_entries_set {u : TeamAlliances} {a : Alliance} {lvl : Nat} {e : Alliance × Nat}
    (he : e ∈ (u.set a lvl).entries) : e ∈ u.entries ∨ e = (a, lvl) := by
  unfold TeamAlliances.set at he
  split at he
  · obtain ⟨e0, he0, heq⟩ := List.mem_map.1 he
    by_cases h : e0.1 = a
    · right
      rw [← heq]
      simp [h]
    · left
      rw [← heq]
      simp only [h, if_false]
      exact he0
  · rcases List.mem_append.1 he with h | h
    · exact Or.inl h
    · right
      simpa using h

theorem entries_step_sound (db : HeroDb) (s : TeamAlliances) (a : Alliance)
    (e : Alliance × Nat) (he : e ∈ (postAddAllianceStep db s a).entries) :
    e ∈ s.entries ∨ e.1.level * e.2 ≤ teamIncidence db s.team e.1 := by
  simp only [postAddAllianceStep] at he
  split at he
  · split at he
    · rcases mem_entries_set he with h | h
      · rcases mem_entries_materialize h with h2 | h2
        · exact Or.inl h2
        · right
          rw [h2]
          simp
      · right
        rw [h]
        simp only
        have := Nat.div_mul_le_self (teamIncidence db s.team a) a.level
        have hcomm : a.level * (teamIncidence db s.team a / a.level) =
            teamIncidence db s.team a / a.level * a.level := Nat.mul_comm _ _
        omega
    · rcases mem_entries_materialize he with h2 | h2
      · exact Or.inl h2
      · right
        rw [h2]
        simp
  · exact Or.inl he

theorem entries_foldl_sound (db : HeroDb) :
    ∀ (L : List Alliance) (s : TeamAlliances) (e : Alliance × Nat),
      e ∈ (L.foldl (postAddAllianceStep db) s).entries →
      e ∈ s.entries ∨ e.1.level * e.2 ≤ teamIncidence db s.team e.1 := by
  intro L
  induction L with
  | nil => intro s e he; exact Or.inl he
  | cons a rest ih =>
    intro s e he
    simp only [List.foldl_cons] at he
    rcases ih _ e he with h | h
    · exact entries_step_sound db s a e h
    · rw [team_postAddAllianceStep] at h
      exact Or.inr h

theorem raised_sizes_zero (db : HeroDb) (hdb : SoundDb db) (w : TeamAlliances)
    (e : Alliance × Nat) (h : e.1.level * e.2 ≤ teamIncidence db w.team e.1) :
    aSize w e.1 e.2 = 0 ∧ mSize w e.1 e.2 = 0 := by
  have h1 := teamIncidence_le db hdb w.team e.1
  have h2 : e.1.level * e.2 ≤ (tHeroes w e.1).card := by
    unfold tHeroes
    omega
  have h3 := tHeroes_card_le w e.1
  constructor
  · exact aSize_eq_zero_of_le w e.1 e.2 (by omega)
  · unfold mSize pSize tSize
    omega

theorem postAdd_raised (db : HeroDb) (hdb : SoundDb db) (s : TeamAlliances)
    (e : Alliance × Nat) (he : e ∈ (postAdd db s).entries) :
    e ∈ s.entries ∨
      (aSize (postAdd db s) e.1 e.2 = 0 ∧ mSize (postAdd db s) e.1 e.2 = 0) := by
  have hprov := entries_foldl_sound db
    (teamAllianceList db (postAddTeam (postAddMixed s)).team)
    (postAddTeam (postAddMixed s)) e he
  rcases hprov with h | h
  · exact Or.inl h
  · right
    have hteam : (postAdd db s).team = (postAddTeam (postAddMixed s)).team :=
      team_postAddAlliance db _
    refine raised_sizes_zero db hdb (postAdd db s) e ?_
    rw [hteam]
    exact h

theorem postAdd_aH_empty (db : HeroDb) (hdb : SoundDb db) (s : TeamAlliances)
    (e : Alliance × Nat) (he : e ∈ (postAdd db s).entries)
    (hcond : (aHeroes (postAdd db s) e.1).card ≤ aSize (postAdd db s) e.1 e.2) :
    aHeroes (postAdd db s) e.1 = ∅ := by
  rcases postAdd_raised db hdb s e he with hmem | hz
  · by_cases hc0 : (aHeroes s e.1).card ≤ aSize s e.1 e.2
    · have hsub : aHeroes s e.1 ⊆ mixPromote s :=
        subset_unionList (List.mem_map.2 ⟨e, List.mem_filter.2 ⟨hmem, decide_eq_true hc0⟩, rfl⟩)
      rw [Finset.eq_empty_iff_forall_not_mem]
      intro x hx
      obtain ⟨hxh, hxp⟩ := Finset.mem_sdiff.1 hx
      rw [pool_postAdd] at hxp
      have hxa : x ∈ aHeroes s e.1 :=
        Finset.mem_sdiff.2 ⟨hxh, fun h2 => hxp (Finset.mem_union_left _ h2)⟩
      exact hxp (Finset.mem_union_right _ (hsub hxa))
    · have haH : aHeroes (postAdd db s) e.1 = aHeroes s e.1 \ mixPromote s := by
        unfold aHeroes
        rw [pool_postAdd]
        ext x
        simp only [Finset.mem_sdiff, Finset.mem_union]
        tauto
      have hinter : aHeroes s e.1 ∩ mixPromote s = e.1.heroes ∩ mixPromote s := by
        ext x
        simp only [Finset.mem_inter, aHeroes, Finset.mem_sdiff]
        constructor
        · rintro ⟨⟨hx1, _⟩, hx2⟩
          exact ⟨hx1, hx2⟩
        · rintro ⟨hx1, hx2⟩
          exact ⟨⟨hx1, mixPromote_disjoint_pool s x hx2⟩, hx2⟩
      have hsplit := Finset.card_sdiff_add_card_inter (aHeroes s e.1) (mixPromote s)
      rw [hinter] at hsplit
      have hpools : (postAdd db s).pool = (postAddMixed s).pool := by
        rw [pool_postAdd, pool_postAddMixed]
      have hasz : aSize (postAdd db s) e.1 e.2 = aSize (postAddMixed s) e.1 e.2 :=
        aSize_eq_of_pool _ _ hpools e.1 e.2
      have hpm := card_inter_mixPromote s e
      rw [haH] at hcond ⊢
      rw [hasz] at hcond
      unfold aSize pSize at hcond hc0
      rw [hpm] at hcond
      refine Finset.card_eq_zero.1 ?_
      omega
  · rw [hz.1] at hcond
    exact Finset.card_eq_zero.1 (Nat.le_zero.1 hcond)

theorem disjoint_postAddMixed (s : TeamAlliances) (hd : s.team ∩ s.mixed = ∅) :
    (postAddMixed s).team ∩ (postAddMixed s).mixed = ∅ := by
  rw [team_postAddMixed, mixed_postAddMixed, Finset.eq_empty_iff_forall_not_mem]
  intro x hx
  obtain ⟨hxt, hxm⟩ := Finset.mem_inter.1 hx
  rcases Finset.mem_union.1 hxm with hxm | hxm
  · have h2 : x ∈ s.team ∩ s.mixed := Finset.mem_inter.2 ⟨hxt, hxm⟩
    rw [hd] at h2
    exact Finset.not_mem_empty x h2
  · exact mixPromote_disjoint_pool s x hxm (Finset.mem_union_left _ hxt)

theorem postAdd_mH_empty (db : HeroDb) (hdb : SoundDb db) (s : TeamAlliances)
    (hd : s.team ∩ s.mixed = ∅)
    (e : Alliance × Nat) (he : e ∈ (postAdd db s).entries)
    (hcond : (mHeroes (postAdd db s) e.1).card ≤ mSize (postAdd db s) e.1 e.2) :
    mHeroes (postAdd db s) e.1 = ∅ := by
  rcases postAdd_raised db hdb s e he with hmem | hz
  · have hdm : (postAddMixed s).team ∩ (postAddMixed s).mixed = ∅ := disjoint_postAddMixed s hd
    by_cases hct : (mHeroes (postAddMixed s) e.1).card ≤ mSize (postAddMixed s) e.1 e.2
    · have hsub : mHeroes (postAddMixed s) e.1 ⊆ teamPromote (postAddMixed s) :=
        subset_unionList (List.mem_map.2 ⟨e, List.mem_filter.2 ⟨hmem, decide_eq_true hct⟩, rfl⟩)
      rw [Finset.eq_empty_iff_forall_not_mem]
      intro x hx
      obtain ⟨hxh, hxm⟩ := Finset.mem_inter.1 hx
      rw [mixed_postAdd] at hxm
      obtain ⟨hxm2, hxnt⟩ := Finset.mem_sdiff.1 hxm
      have hx3 : x ∈ mHeroes (postAddMixed s) e.1 := by
        unfold mHeroes
        rw [mixed_postAddMixed]
        exact Finset.mem_inter.2 ⟨hxh, hxm2⟩
      exact hxnt (hsub hx3)
    · -- arithmetic case
      have hmix2 : (postAdd db s).mixed =
          (postAddMixed s).mixed \ teamPromote (postAddMixed s) := by
        rw [mixed_postAdd, mixed_postAddMixed]
      have hteam2 : (postAdd db s).team =
          (postAddMixed s).team ∪ teamPromote (postAddMixed s) := by
        rw [team_postAdd, team_postAddMixed]
      have hmHdef : mHeroes (postAdd db s) e.1 =
          mHeroes (postAddMixed s) e.1 \ teamPromote (postAddMixed s) := by
        unfold mHeroes
        rw [hmix2]
        ext x
        simp only [Finset.mem_inter, Finset.mem_sdiff]
        tauto
      have hinter : mHeroes (postAddMixed s) e.1 ∩ teamPromote (postAddMixed s) =
          e.1.heroes ∩ teamPromote (postAddMixed s) := by
        ext x
        simp only [Finset.mem_inter, mHeroes]
        constructor
        · rintro ⟨⟨hx1, _⟩, hx2⟩
          exact ⟨hx1, hx2⟩
        · rintro ⟨hx1, hx2⟩
          exact ⟨⟨hx1, teamPromote_subset_mixed _ hx2⟩, hx2⟩
      have hsplit := Finset.card_sdiff_add_card_inter (mHeroes (postAddMixed s) e.1)
        (teamPromote (postAddMixed s))
      rw [hinter] at hsplit
      have htH : tHeroes (postAdd db s) e.1 =
          tHeroes (postAddMixed s) e.1 ∪ (e.1.heroes ∩ teamPromote (postAddMixed s)) := by
        unfold tHeroes
        rw [hteam2, Finset.inter_union_distrib_left]
      have htHcard : (tHeroes (postAdd db s) e.1).card =
          (tHeroes (postAddMixed s) e.1).card +
            (e.1.heroes ∩ teamPromote (postAddMixed s)).card := by
        rw [htH]
        refine Finset.card_union_of_disjoint ?_
        rw [Finset.disjoint_left]
        intro x hx1 hx2
        have hxteam : x ∈ (postAddMixed s).team := (Finset.mem_inter.1 hx1).2
        have hxmix : x ∈ (postAddMixed s).mixed :=
          teamPromote_subset_mixed _ ((Finset.mem_inter.1 hx2).2)
        have h2 : x ∈ (postAddMixed s).team ∩ (postAddMixed s).mixed :=
          Finset.mem_inter.2 ⟨hxteam, hxmix⟩
        rw [hdm] at h2
        exact Finset.not_mem_empty x h2
      have hpart : (pHeroes (postAddMixed s) e.1).card =
          (tHeroes (postAddMixed s) e.1).card + (mHeroes (postAddMixed s) e.1).card := by
        have hun : pHeroes (postAddMixed s) e.1 =
            tHeroes (postAddMixed s) e.1 ∪ mHeroes (postAddMixed s) e.1 := by
          unfold pHeroes tHeroes mHeroes TeamAlliances.pool
          rw [Finset.inter_union_distrib_left]
        rw [hun]
        refine Finset.card_union_of_disjoint ?_
        rw [Finset.disjoint_left]
        intro x hx1 hx2
        have h2 : x ∈ (postAddMixed s).team ∩ (postAddMixed s).mixed :=
          Finset.mem_inter.2 ⟨(Finset.mem_inter.1 hx1).2, (Finset.mem_inter.1 hx2).2⟩
        rw [hdm] at h2
        exact Finset.not_mem_empty x h2
      have hpH : (pHeroes (postAdd db s) e.1).card = (pHeroes (postAddMixed s) e.1).card := by
        unfold pHeroes
        rw [pool_postAdd, pool_postAddMixed]
      rw [hmHdef] at hcond ⊢
      unfold mSize pSize tSize at hcond hct
      rw [hpH, htHcard] at hcond
      refine Finset.card_eq_zero.1 ?_
      omega
  · rw [hz.2] at hcond
    exact Finset.card_eq_zero.1 (Nat.le_zero.1 hcond)

theorem find?_map_set (a : Alliance) (lvl : Nat) :
    ∀ l : List (Alliance × Nat), l.any (fun e => e.1 = a) = true →
      (l.map (fun e => if e.1 = a then (a, lvl) else e)).find?
        (fun e => e.1 = a) = some (a, lvl) := by
  intro l
  induction l with
  | nil => intro h; cases h
  | cons e rest ih =>
    intro h
    simp only [List.map_cons]
    by_cases he : e.1 = a
    · simp [List.find?_cons, he]
    · rw [List.find?_cons_of_neg]
      · refine ih ?_
        simp only [List.any_cons] at h
        rcases Bool.or_eq_true_iff.1 h with h1 | h1
        · exact absurd (of_decide_eq_true h1) he
        · exact h1
      · simp [he]

theorem find?_map_set_other (a : Alliance) (lvl : Nat) (b : Alliance) (hba : b ≠ a) :
    ∀ l : List (Alliance × Nat),
      (l.map (fun e => if e.1 = a then (a, lvl) else e)).find? (fun e => e.1 = b) =
        l.find? (fun e => e.1 = b) := by
  intro l
  induction l with
  | nil => rfl
  | cons e rest ih =>
    simp only [List.map_cons]
    by_cases he : e.1 = a
    · have hif : (if e.1 = a then (a, lvl) else e) = (a, lvl) := if_pos he
      have h1 : ¬ e.1 = b := by
        rw [he]
        exact fun h2 => hba h2.symm
      rw [hif, List.find?_cons_of_neg, List.find?_cons_of_neg]
      · exact ih
      · simp [h1]
      · simp only [decide_eq_true_eq]
        exact fun h2 => hba h2.symm
    · have hif : (if e.1 = a then (a, lvl) else e) = e := if_neg he
      by_cases hb : e.1 = b
      · rw [hif, List.find?_cons_of_pos, List.find?_cons_of_pos] <;> simp [hb]
      · rw [hif, List.find?_cons_of_neg, List.find?_cons_of_neg]
        · exact ih
        · simp [hb]
        · simp [hb]

theorem level_set_self (s : TeamAlliances) (a : Alliance) (lvl : Nat) :
    (s.set a lvl).level a = lvl := by
  unfold TeamAlliances.set TeamAlliances.level
  split
  · rename_i hc
    rw [find?_map_set a lvl s.entries hc]
    rfl
  · rename_i hc
    rw [List.find?_append]
    have hnone : s.entries.find? (fun e => decide (e.1 = a)) = none := by
      rw [List.find?_eq_none]
      intro e he hp
      refine hc ?_
      unfold TeamAlliances.containsKey
      exact List.any_eq_true.2 ⟨e, he, hp⟩
    rw [hnone]
    simp [List.find?_cons]

theorem level_set_other (s : TeamAlliances) (a : Alliance) (lvl : Nat) (b : Alliance)
    (hba : b ≠ a) : (s.set a lvl).level b = s.level b := by
  unfold TeamAlliances.set TeamAlliances.level
  split
  · rw [find?_map_set_other a lvl b hba]
  · rw [List.find?_append]
    cases hf : s.entries.find? (fun e => decide (e.1 = b)) with
    | some e => simp
    | none =>
      have h1 : a ≠ b := fun h2 => hba h2.symm
      simp [List.find?_cons, h1]

theorem containsKey_materialize_self (s : TeamAlliances) (a : Alliance) :
    (s.materialize a).containsKey a = true := by
  unfold TeamAlliances.materialize
  split
  · assumption
  · unfold TeamAlliances.containsKey
    rw [List.any_append]
    simp

theorem containsKey_materialize_keep (s : TeamAlliances) (a b : Alliance)
    (h : s.containsKey b = true) : (s.materialize a).containsKey b = true := by
  unfold TeamAlliances.materialize
  split
  · exact h
  · unfold TeamAlliances.containsKey at h ⊢
    rw [List.any_append, h]
    rfl

theorem containsKey_set_keep (s : TeamAlliances) (a : Alliance) (lvl : Nat) (b : Alliance)
    (h : s.containsKey b = true) : (s.set a lvl).containsKey b = true := by
  unfold TeamAlliances.containsKey at h ⊢
  unfold TeamAlliances.set
  split
  · obtain ⟨e, he, hp⟩ := List.any_eq_true.1 h
    have heb : e.1 = b := of_decide_eq_true hp
    refine List.any_eq_true.2 ?_
    by_cases hea : e.1 = a
    · refine ⟨(a, lvl), List.mem_map.2 ⟨e, he, by simp [hea]⟩, ?_⟩
      have hab : a = b := by rw [← hea, heb]
      simp [hab]
    · exact ⟨e, List.mem_map.2 ⟨e, he, by simp [hea]⟩, hp⟩
  · rw [List.any_append, h]
    rfl

theorem level_le_step (db : HeroDb) (s : TeamAlliances) (a b : Alliance) :
    s.level b ≤ (postAddAllianceStep db s a).level b := by
  simp only [postAddAllianceStep]
  split
  · split
    · rename_i hlvl hlt
      by_cases hba : b = a
      · subst hba
        rw [level_set_self]
        rw [level_materialize] at hlt
        omega
      · rw [level_set_other _ _ _ _ hba, level_materialize]
    · rw [level_materialize]
  · exact le_rfl

theorem containsKey_step_keep (db : HeroDb) (s : TeamAlliances) (a b : Alliance)
    (h : s.containsKey b = true) :
    (postAddAllianceStep db s a).containsKey b = true := by
  simp only [postAddAllianceStep]
  split
  · split
    · exact containsKey_set_keep _ a _ b (containsKey_materialize_keep s a b h)
    · exact containsKey_materialize_keep s a b h
  · exact h

theorem level_le_foldl (db : HeroDb) :
    ∀ (L : List Alliance) (s : TeamAlliances) (b : Alliance),
      s.level b ≤ (L.foldl (postAddAllianceStep db) s).level b := by
  intro L
  induction L with
  | nil => intro s b; exact le_rfl
  | cons a rest ih =>
    intro s b
    simp only [List.foldl_cons]
    exact le_trans (level_le_step db s a b) (ih _ b)

theorem containsKey_foldl_keep (db : HeroDb) :
    ∀ (L : List Alliance) (s : TeamAlliances) (b : Alliance),
      s.containsKey b = true →
      (L.foldl (postAddAllianceStep db) s).containsKey b = true := by
  intro L
  induction L with
  | nil => intro s b h; exact h
  | cons a rest ih =>
    intro s b h
    simp only [List.foldl_cons]
    exact ih _ b (containsKey_step_keep db s a b h)

theorem step_processed (db : HeroDb) (s : TeamAlliances) (a : Alliance)
    (hlvl : teamIncidence db s.team a / a.level ≠ 0) :
    (postAddAllianceStep db s a).containsKey a = true ∧
    teamIncidence db s.team a / a.level ≤ (postAddAllianceStep db s a).level a := by
  simp only [postAddAllianceStep]
  rw [if_pos hlvl]
  split
  · refine ⟨containsKey_set_keep _ a _ a (containsKey_materialize_self s a), ?_⟩
    rw [level_set_self]
  · rename_i hlt
    rw [level_materialize] at hlt ⊢
    exact ⟨containsKey_materialize_self s a, by omega⟩

theorem foldl_processed (db : HeroDb) :
    ∀ (L : List Alliance) (s : TeamAlliances) (a : Alliance), a ∈ L →
      teamIncidence db s.team a / a.level ≠ 0 →
      (L.foldl (postAddAllianceStep db) s).containsKey a = true ∧
      teamIncidence db s.team a / a.level ≤ (L.foldl (postAddAllianceStep db) s).level a := by
  intro L
  induction L with
  | nil => intro s a ha; cases ha
  | cons hd rest ih =>
    intro s a ha hlvl
    simp only [List.foldl_cons]
    rcases List.mem_cons.1 ha with rfl | ha
    · obtain ⟨hc, hle⟩ := step_processed db s a hlvl
      exact ⟨containsKey_foldl_keep db rest _ a hc,
        le_trans hle (level_le_foldl db rest _ a)⟩
    · have hteam : (postAddAllianceStep db s hd).team = s.team :=
        team_postAddAllianceStep db s hd
      have h2 := ih (postAddAllianceStep db s hd) a ha (by rw [hteam]; exact hlvl)
      rw [hteam] at h2
      exact h2

theorem step_noop (db : HeroDb) (s : TeamAlliances) (a : Alliance)
    (h : teamIncidence db s.team a / a.level ≠ 0 →
         s.containsKey a = true ∧ teamIncidence db s.team a / a.level ≤ s.level a) :
    postAddAllianceStep db s a = s := by
  simp only [postAddAllianceStep]
  split
  · rename_i hlvl
    obtain ⟨hc, hle⟩ := h hlvl
    have hm : s.materialize a = s := by
      unfold TeamAlliances.materialize
      rw [if_pos hc]
    rw [hm, if_neg]
    omega
  · rfl

theorem foldl_noop (db : HeroDb) (s : TeamAlliances) :
    ∀ L : List Alliance, (∀ a ∈ L, postAddAllianceStep db s a = s) →
      L.foldl (postAddAllianceStep db) s = s := by
  intro L
  induction L with
  | nil => intro _; rfl
  | cons a rest ih =>
    intro h
    simp only [List.foldl_cons, h a (List.mem_cons_self a rest)]
    exact ih (fun b hb => h b (List.mem_cons_of_mem a hb))

/-- C9: idempotent convergence.  Under the loader's reference-graph guarantee,
for any container whose `team` and `mixed` sets are disjoint — in particular
any state reached at the end of a successful mutation — running the
convergence pass `_post_add` a second time changes nothing: every faction that
satisfies the outstanding-promotion test has no outstanding heroes left, every
faction that satisfies the ambiguity-resolution test has no ambiguous heroes
left, and every recomputed level is already at or below the stored level. -/
theorem c9_idempotent (db : HeroDb) (s : TeamAlliances) (hdb : SoundDb db)
    (hd : s.team ∩ s.mixed = ∅) :
    postAdd db (postAdd db s) = postAdd db s := by
  have hmix : postAddMixed (postAdd db s) = postAdd db s := by
    have hMP : mixPromote (postAdd db s) = ∅ := by
      unfold mixPromote
      refine unionList_eq_empty ?_
      intro f hf
      obtain ⟨e, he, hef⟩ := List.mem_map.1 hf
      obtain ⟨hmem, hcond⟩ := List.mem_filter.1 he
      rw [← hef]
      exact postAdd_aH_empty db hdb s e hmem (of_decide_eq_true hcond)
    unfold postAddMixed
    rw [hMP, Finset.union_empty]
  have hteam : postAddTeam (postAdd db s) = postAdd db s := by
    have hTP : teamPromote (postAdd db s) = ∅ := by
      unfold teamPromote
      refine unionList_eq_empty ?_
      intro f hf
      obtain ⟨e, he, hef⟩ := List.mem_map.1 hf
      obtain ⟨hmem, hcond⟩ := List.mem_filter.1 he
      rw [← hef]
      exact postAdd_mH_empty db hdb s hd e hmem (of_decide_eq_true hcond)
    unfold postAddTeam
    rw [hTP, Finset.union_empty, Finset.sdiff_empty]
  have halliance : postAddAlliance db (postAdd db s) = postAdd db s := by
    unfold postAddAlliance
    refine foldl_noop db (postAdd db s) _ ?_
    intro a ha
    refine step_noop db (postAdd db s) a ?_
    intro hlvl
    have hteq : (postAdd db s).team = (postAddTeam (postAddMixed s)).team :=
      team_postAddAlliance db _
    rw [hteq] at ha hlvl
    have h2 := foldl_processed db
      (teamAllianceList db (postAddTeam (postAddMixed s)).team)
      (postAddTeam (postAddMixed s)) a ha hlvl
    rw [hteq]
    exact h2
  show postAddAlliance db (postAddTeam (postAddMixed (postAdd db s))) = postAdd db s
  rw [hmix, hteam, halliance]

/-- C9 witness: idempotence at a concrete container reached by a successful
mutation (`add(brutes, 2)` on an empty team). -/
theorem c9_idempotent_witness :
    SoundDb emptyDb ∧ (brutes2.alliances.team ∩ brutes2.alliances.mixed = ∅) ∧
    postAdd emptyDb (postAdd emptyDb brutes2.alliances) = postAdd emptyDb brutes2.alliances := by
  have hdb : SoundDb emptyDb := by
    intro h
    exact ⟨List.nodup_nil, by intro a ha; cases ha⟩
  exact ⟨hdb, by decide, c9_idempotent emptyDb brutes2.alliances hdb (by decide)⟩
